import Mathlib

set_option maxRecDepth 40000

deriving instance DecidableEq for Except

/-!
# Verification of the cidr-block address/CIDR library

Shallow embedding of the `ipv4`/`ipv6` namespaces, the `Ipv4Address`,
`Ipv6Address`, `Ipv4Cidr` and `Ipv6Cidr` classes of the cidr-block
repository, together with proofs and refutations of the specified
properties.

Strings are modelled as `List Char`.  JavaScript numbers are modelled by
`JsNum` (NaN, the two infinities, or an exact rational); double rounding
is not modelled, every value actually reached by the library in the
properties below is a small integer on which rounding is the identity.
JavaScript bigints are modelled by `ℤ`.  Machine 32-bit operator
semantics (`<<`, `>>`, `&`, `|` return signed Int32 values) are modelled
explicitly by `toInt32`/`toUint32` wrappers.  Fallible constructors
return `Except JsError`.
-/

namespace CidrBlock

/-- A JavaScript number: NaN, +Infinity, -Infinity, or a finite value
(kept exact as a rational). -/
inductive JsNum where
  | nan
  | inf
  | negInf
  | fin (q : ℚ)
  deriving DecidableEq

/-- A JavaScript runtime value in positions where the library only
checks `typeof v === 'number'`: a number, or anything else. -/
inductive JsVal where
  | num (x : JsNum)
  | other
  deriving DecidableEq

namespace JsNum

/-- `Number.isFinite`. -/
def isFiniteB : JsNum → Bool
  | .fin _ => true
  | _ => false

/-- `Number.isInteger`. -/
def isIntB : JsNum → Bool
  | .fin q => q.den = 1
  | _ => false

/-- The JavaScript `<` comparison on numbers (false whenever NaN is involved). -/
def lt : JsNum → JsNum → Bool
  | .nan, _ => false
  | _, .nan => false
  | .negInf, .negInf => false
  | .negInf, _ => true
  | _, .negInf => false
  | .inf, _ => false
  | .fin _, .inf => true
  | .fin a, .fin b => a < b

/-- The JavaScript `>` comparison on numbers. -/
def gt (a b : JsNum) : Bool := lt b a

end JsNum

/-- Is a `JsVal` a number (`typeof v === 'number'`)? -/
def JsVal.isNumber : JsVal → Bool
  | .num _ => true
  | .other => false

/-- Read the number out of a `JsVal` (only used behind `isNumber` guards). -/
def JsVal.toNum : JsVal → JsNum
  | .num x => x
  | .other => .nan

/-- Truncation of an exact rational toward zero (the first step of the
ECMAScript ToInt32/ToUint32 conversions). -/
def ratTrunc (q : ℚ) : ℤ := if 0 ≤ q then ⌊q⌋ else -⌊-q⌋

/-- ECMAScript ToUint32 on an integer: reduce modulo 2^32 into [0, 2^32). -/
def toUint32 (n : ℤ) : ℤ := n.emod 4294967296

/-- ECMAScript ToInt32 on an integer: reduce modulo 2^32 into
[-2^31, 2^31). -/
def toInt32 (n : ℤ) : ℤ :=
  let m := toUint32 n
  if m < 2147483648 then m else m - 4294967296

/-- ToInt32 applied to a JavaScript number (NaN and the infinities go to 0). -/
def jsNumToInt32 : JsNum → ℤ
  | .fin q => toInt32 (ratTrunc q)
  | _ => 0

/-- Exact integer reading of a JavaScript number (used only where
validation has already established `Number.isInteger`). -/
def jsNumToInt : JsNum → ℤ
  | .fin q => ratTrunc q
  | _ => 0

/-- The JavaScript `<<` operator on 32-bit integers (shift count taken
mod 32, result a signed Int32). -/
def jsShl (x : ℤ) (k : ℕ) : ℤ := toInt32 (toInt32 x * 2 ^ (k % 32))

/-- The JavaScript `>>` operator (arithmetic shift right on the Int32
value; equals flooring division by a power of two). -/
def jsShr (x : ℤ) (k : ℕ) : ℤ := Int.fdiv (toInt32 x) (2 ^ (k % 32))

/-- The JavaScript `&` operator on 32-bit integers. -/
def jsAnd (x y : ℤ) : ℤ :=
  toInt32 (((toUint32 x).toNat &&& (toUint32 y).toNat : ℕ) : ℤ)

/-- The JavaScript `|` operator on 32-bit integers. -/
def jsOr (x y : ℤ) : ℤ :=
  toInt32 (((toUint32 x).toNat ||| (toUint32 y).toNat : ℕ) : ℤ)

/-! ## String helpers -/

/-- The ASCII whitespace characters stripped by ToNumber / parseInt
(compared through code points). -/
def isWsChar (c : Char) : Bool :=
  c.toNat = 32 || c.toNat = 9 || c.toNat = 10 || c.toNat = 13 || c.toNat = 11 || c.toNat = 12

/-- A decimal digit (code points of `0`-`9`). -/
def isDigitChar (c : Char) : Bool := 48 ≤ c.toNat && c.toNat ≤ 57

/-- A hexadecimal digit, the character class `[0-9a-fA-F]`. -/
def isHexDigitChar (c : Char) : Bool :=
  isDigitChar c || (97 ≤ c.toNat && c.toNat ≤ 102) || (65 ≤ c.toNat && c.toNat ≤ 70)

/-- An octal digit. -/
def isOctDigitChar (c : Char) : Bool := 48 ≤ c.toNat && c.toNat ≤ 55

/-- A binary digit. -/
def isBinDigitChar (c : Char) : Bool := c.toNat = 48 || c.toNat = 49

/-- Value of a decimal digit character. -/
def digitVal (c : Char) : ℕ := c.toNat - 48

/-- Value of a hexadecimal digit character. -/
def hexDigitVal (c : Char) : ℕ :=
  if isDigitChar c then c.toNat - 48
  else if 97 ≤ c.toNat && c.toNat ≤ 102 then c.toNat - 87
  else c.toNat - 55

/-- Value denoted by a string of decimal digits. -/
def decVal (s : List Char) : ℕ := s.foldl (fun a c => 10 * a + digitVal c) 0

/-- Value denoted by a string of hexadecimal digits. -/
def hexVal (s : List Char) : ℕ := s.foldl (fun a c => 16 * a + hexDigitVal c) 0

/-- Value denoted by a string of octal digits. -/
def octVal (s : List Char) : ℕ := s.foldl (fun a c => 8 * a + digitVal c) 0

/-- Value denoted by a string of binary digits. -/
def binVal (s : List Char) : ℕ := s.foldl (fun a c => 2 * a + digitVal c) 0

/-- Strip whitespace from both ends. -/
def trimWs (s : List Char) : List Char :=
  ((s.dropWhile isWsChar).reverse.dropWhile isWsChar).reverse

/-- The digit characters, lowercase for values 10-35. -/
def digitToChar (n : ℕ) : Char :=
  if n < 10 then Char.ofNat (48 + n) else Char.ofNat (87 + n)

/-- Fuelled digit loop for decimal rendering (the fuel only serves
structural recursion; `natToDecStr` always supplies enough). -/
def natToDecStrAux : ℕ → ℕ → List Char
  | 0, _ => []
  | fuel + 1, n =>
    if n < 10 then [digitToChar n]
    else natToDecStrAux fuel (n / 10) ++ [digitToChar (n % 10)]

/-- Decimal rendering of a natural number, as produced by
`Number.prototype.toString` on an integer. -/
def natToDecStr (n : ℕ) : List Char := natToDecStrAux (n + 1) n

/-- Decimal rendering of an integer. -/
def intToDecStr (z : ℤ) : List Char :=
  if z < 0 then '-' :: natToDecStr (-z).toNat else natToDecStr z.toNat

/-- Fuelled digit loop for hexadecimal rendering. -/
def natToHexStrAux : ℕ → ℕ → List Char
  | 0, _ => []
  | fuel + 1, n =>
    if n < 16 then [digitToChar n]
    else natToHexStrAux fuel (n / 16) ++ [digitToChar (n % 16)]

/-- Lowercase hexadecimal rendering of a natural number without leading
zeros, as produced by `Number.prototype.toString(16)` on an integer. -/
def natToHexStr (n : ℕ) : List Char := natToHexStrAux (n + 1) n

/-! ## JavaScript string-to-number conversions

`jsToNumber` models ECMAScript ToNumber on strings, restricted to the
grammar without a decimal point: every string this library hands to
`Number` was previously produced by splitting on the dot character, so
none contains a dot.  The exact rational value is kept (see the header
note on rounding). -/

/-- Tail of a `0x`/`0X` literal. -/
def jsHexTail (r : List Char) : JsNum :=
  if r ≠ [] ∧ r.all isHexDigitChar then .fin (hexVal r) else .nan

/-- Tail of a `0o`/`0O` literal. -/
def jsOctTail (r : List Char) : JsNum :=
  if r ≠ [] ∧ r.all isOctDigitChar then .fin (octVal r) else .nan

/-- Tail of a `0b`/`0B` literal. -/
def jsBinTail (r : List Char) : JsNum :=
  if r ≠ [] ∧ r.all isBinDigitChar then .fin (binVal r) else .nan

/-- Exponent digits of a decimal literal. -/
def jsExpoDigits (d : List Char) (mant : ℚ) (es : ℤ) : JsNum :=
  if d ≠ [] ∧ d.all isDigitChar then .fin (mant * (10 : ℚ) ^ (es * (decVal d : ℤ)))
  else .nan

/-- Exponent part (after the `e`/`E`) of a decimal literal. -/
def jsExpoTail (e : List Char) (mant : ℚ) : JsNum :=
  if e.take 1 = ['+'] then jsExpoDigits (e.drop 1) mant 1
  else if e.take 1 = ['-'] then jsExpoDigits (e.drop 1) mant (-1)
  else jsExpoDigits e mant 1

/-- Unsigned decimal literal (or `Infinity`); the sign is kept as an
integer so the value stays in exact integer arithmetic. -/
def jsUnsignedDec (r : List Char) (sg : ℤ) : JsNum :=
  if r = ['I', 'n', 'f', 'i', 'n', 'i', 't', 'y'] then
    if sg = 1 then .inf else .negInf
  else
    let m := r.takeWhile isDigitChar
    let rest := r.dropWhile isDigitChar
    if m = [] then .nan
    else if rest = [] then .fin ((sg * (decVal m : ℤ) : ℤ) : ℚ)
    else if rest.take 1 = ['e'] ∨ rest.take 1 = ['E'] then
      jsExpoTail (rest.drop 1) ((sg * (decVal m : ℤ) : ℤ) : ℚ)
    else .nan

/-- Optionally signed decimal literal. -/
def jsSignedDec (t : List Char) : JsNum :=
  if t.take 1 = ['+'] then jsUnsignedDec (t.drop 1) 1
  else if t.take 1 = ['-'] then jsUnsignedDec (t.drop 1) (-1)
  else jsUnsignedDec t 1

/-- ECMAScript ToNumber on a string (`Number(s)`), dot-free grammar. -/
def jsToNumber (s : List Char) : JsNum :=
  let t := trimWs s
  if t = [] then .fin 0
  else if t.take 2 = ['0', 'x'] ∨ t.take 2 = ['0', 'X'] then jsHexTail (t.drop 2)
  else if t.take 2 = ['0', 'o'] ∨ t.take 2 = ['0', 'O'] then jsOctTail (t.drop 2)
  else if t.take 2 = ['0', 'b'] ∨ t.take 2 = ['0', 'B'] then jsBinTail (t.drop 2)
  else jsSignedDec t

/-- `Number.parseInt(s, 10)`: leading-integer parsing, trailing junk ignored. -/
def jsParseInt10 (s : List Char) : JsNum :=
  let t := s.dropWhile isWsChar
  let sg : ℤ := if t.take 1 = ['-'] then -1 else 1
  let r := if t.take 1 = ['+'] ∨ t.take 1 = ['-'] then t.drop 1 else t
  let ds := r.takeWhile isDigitChar
  if ds = [] then .nan else .fin ((sg * (decVal ds : ℤ) : ℤ) : ℚ)

/-- `Number.parseInt(s, 16)`: optional `0x` prefix, then leading hex digits. -/
def jsParseInt16 (s : List Char) : JsNum :=
  let t := s.dropWhile isWsChar
  let sg : ℤ := if t.take 1 = ['-'] then -1 else 1
  let r := if t.take 1 = ['+'] ∨ t.take 1 = ['-'] then t.drop 1 else t
  let r2 := if r.take 2 = ['0', 'x'] ∨ r.take 2 = ['0', 'X'] then r.drop 2 else r
  let ds := r2.takeWhile isHexDigitChar
  if ds = [] then .nan else .fin ((sg * (hexVal ds : ℤ) : ℤ) : ℚ)

/-! ## JavaScript `String.prototype.split` with a multi-character separator

Single-character splits (`split('.')`, `split(':')`, `split('/')`) are
modelled by `List.splitOn`, which matches the JavaScript semantics.  For
`split('::')` we model the leftmost non-overlapping scan explicitly. -/

/-- JavaScript `s.split('::')` (the only multi-character split the
library performs): splitting at the leftmost non-overlapping
occurrences of two adjacent colons. -/
def jsSplitDC : List Char → List (List Char)
  | [] => [[]]
  | [c] => [[c]]
  | ':' :: ':' :: rest => [] :: jsSplitDC rest
  | c :: rest =>
    match jsSplitDC rest with
    | [] => [[c]]
    | h :: t => (c :: h) :: t

/-- The length of `s.match(/::/g) || []`: the number of leftmost
non-overlapping occurrences of `::`. -/
def countDC : List Char → ℕ
  | ':' :: ':' :: rest => countDC rest + 1
  | _ :: rest => countDC rest
  | [] => 0

/-- JavaScript `s.includes('::')`. -/
def hasDC : List Char → Bool
  | ':' :: ':' :: _ => true
  | _ :: rest => hasDC rest
  | [] => false

end CidrBlock

namespace CidrBlock

/-! ## Literal and error types -/

/-- `Ipv4AddressLiteral`: string, number, or octet array, plus the
null/undefined inputs the validators must reject. -/
inductive Ipv4AddrLit where
  | str (s : List Char)
  | num (x : JsNum)
  | arr (xs : List JsVal)
  | nullish
  deriving DecidableEq

/-- `Ipv6AddressLiteral`: string, bigint, or hextet array, plus
null/undefined. -/
inductive Ipv6AddrLit where
  | str (s : List Char)
  | big (z : ℤ)
  | arr (xs : List JsVal)
  | nullish
  deriving DecidableEq

/-- `Ipv4CidrLiteral`: string, `{address, range}` object, or
`[address, range]` tuple, plus null/undefined.  (An object missing one
of its two keys is not representable; no property depends on it.) -/
inductive Ipv4CidrLit where
  | str (s : List Char)
  | obj (a : Ipv4AddrLit) (r : JsVal)
  | tup (a : Ipv4AddrLit) (r : JsVal)
  | nullish
  deriving DecidableEq

/-- `Ipv6CidrLiteral`. -/
inductive Ipv6CidrLit where
  | str (s : List Char)
  | obj (a : Ipv6AddrLit) (r : JsVal)
  | tup (a : Ipv6AddrLit) (r : JsVal)
  | nullish
  deriving DecidableEq

/-- The typed errors thrown by the library, each carrying the offending
literal (the range errors carry their message string). -/
inductive JsError where
  | invalidIpv4Address (l : Ipv4AddrLit)
  | invalidIpv4Cidr (l : Ipv4CidrLit)
  | invalidIpv4CidrRange (msg : List Char)
  | invalidIpv6Address (l : Ipv6AddrLit)
  | invalidIpv6Cidr (l : Ipv6CidrLit)
  | invalidIpv6CidrRange (msg : List Char)
  deriving DecidableEq

/-! ## The `ipv4` namespace -/

namespace ipv4

/-- `ipv4.MAX_SIZE = 0xffffffff`. -/
def MAX_SIZE : ℤ := 4294967295

/-- `ipv4.MIN_SIZE = 0`. -/
def MIN_SIZE : ℤ := 0

/-- `ipv4.MAX_RANGE = 32`. -/
def MAX_RANGE : ℤ := 32

/-- `ipv4.MIN_RANGE = 0`. -/
def MIN_RANGE : ℤ := 0

/-- The final octet checks of `ipv4.isValidAddress`: exactly four
entries, each an integer number within [0, 255].  (The `typeof octet`
check is built into `JsNum`.) -/
def octetsCheck (octets : List JsNum) : Bool :=
  octets.length = 4 &&
    octets.all fun o => o.isIntB && !(o.lt (.fin 0)) && !(o.gt (.fin 255))

/-- The octets of a numeric literal: `[(ip>>24)&0xff, (ip>>16)&0xff,
(ip>>8)&0xff, ip&0xff]`. -/
def numOctets (x : JsNum) : List JsNum :=
  [ .fin ((jsAnd (jsShr (jsNumToInt32 x) 24) 255 : ℤ) : ℚ)
  , .fin ((jsAnd (jsShr (jsNumToInt32 x) 16) 255 : ℤ) : ℚ)
  , .fin ((jsAnd (jsShr (jsNumToInt32 x) 8) 255 : ℤ) : ℚ)
  , .fin ((jsAnd (jsNumToInt32 x) 255 : ℤ) : ℚ) ]

/-- `ipv4.isValidAddress`. -/
def isValidAddress : Ipv4AddrLit → Bool
  | .nullish => false
  | .str s => octetsCheck ((s.splitOn '.').map jsToNumber)
  | .num x =>
    if !x.isFiniteB || x.lt (.fin (MIN_SIZE : ℚ)) || x.gt (.fin (MAX_SIZE : ℚ)) then false
    else octetsCheck (numOctets x)
  | .arr xs =>
    if xs.any (fun v => !v.isNumber) then false
    else octetsCheck (xs.map JsVal.toNum)

/-- `ipv4.isValidCIDR`: decompose into (address, range), validate the
address with `isValidAddress`, then the integer range bounds. -/
def isValidCIDR : Ipv4CidrLit → Bool
  | .nullish => false
  | .str s =>
    let parts := s.splitOn '/'
    if parts.length ≠ 2 then false
    else
      let address := Ipv4AddrLit.str (parts.getD 0 [])
      let range := jsParseInt10 (parts.getD 1 [])
      if !isValidAddress address then false
      else range.isIntB && !(range.lt (.fin (MIN_RANGE : ℚ))) && !(range.gt (.fin (MAX_RANGE : ℚ)))
  | .tup a r =>
    if a = .nullish then false
    else if !r.isNumber then false
    else if !isValidAddress a then false
    else
      let range := r.toNum
      range.isIntB && !(range.lt (.fin (MIN_RANGE : ℚ))) && !(range.gt (.fin (MAX_RANGE : ℚ)))
  | .obj a r =>
    if a = .nullish then false
    else if !r.isNumber then false
    else if !isValidAddress a then false
    else
      let range := r.toNum
      range.isIntB && !(range.lt (.fin (MIN_RANGE : ℚ))) && !(range.gt (.fin (MAX_RANGE : ℚ)))

/-- `ipv4.parseOctets`.  On a validated literal each octet is an
integer, so the exact integer reading is returned. -/
def parseOctets (l : Ipv4AddrLit) : Except JsError (List ℤ) :=
  if !isValidAddress l then .error (.invalidIpv4Address l)
  else match l with
    | .str s => .ok (((s.splitOn '.').map jsToNumber).map jsNumToInt)
    | .num x =>
      .ok [ jsAnd (jsShr (jsNumToInt32 x) 24) 255
          , jsAnd (jsShr (jsNumToInt32 x) 16) 255
          , jsAnd (jsShr (jsNumToInt32 x) 8) 255
          , jsAnd (jsNumToInt32 x) 255 ]
    | .arr xs => .ok ((xs.map JsVal.toNum).map jsNumToInt)
    | .nullish => .error (.invalidIpv4Address l)

end ipv4

/-- The `Ipv4Address` class: a wrapper around its stored octet array. -/
structure Ipv4Address where
  octets : List ℤ
  deriving DecidableEq

/-- The `Ipv4Address` constructor: validate, then parse. -/
def mkIpv4Address (l : Ipv4AddrLit) : Except JsError Ipv4Address :=
  if !ipv4.isValidAddress l then .error (.invalidIpv4Address l)
  else (ipv4.parseOctets l).map Ipv4Address.mk

namespace Ipv4Address

/-- Octet `i` of the stored array. -/
def oct (a : Ipv4Address) (i : ℕ) : ℤ := a.octets.getD i 0

/-- `toString()`: dotted-decimal join. -/
def toStr (a : Ipv4Address) : List Char :=
  List.intercalate ['.'] (a.octets.map intToDecStr)

/-- `toNumber()`: `(o0 << 24) | (o1 << 16) | (o2 << 8) | o3` with the
JavaScript signed 32-bit operator semantics (no `>>> 0`). -/
def toNumber (a : Ipv4Address) : ℤ :=
  jsOr (jsOr (jsOr (jsShl (a.oct 0) 24) (jsShl (a.oct 1) 16)) (jsShl (a.oct 2) 8)) (a.oct 3)

/-- `hasNextAddress()`. -/
def hasNextAddress (a : Ipv4Address) : Bool := a.toNumber < ipv4.MAX_SIZE

/-- `nextAddress()`: `undefined` past `MAX_SIZE`, otherwise a newly
constructed address (whose constructor may itself throw). -/
def nextAddress (a : Ipv4Address) : Except JsError (Option Ipv4Address) :=
  let next := a.toNumber + 1
  if next > ipv4.MAX_SIZE then .ok none
  else (mkIpv4Address (.num (.fin (next : ℚ)))).map some

/-- `hasPreviousAddress()`. -/
def hasPreviousAddress (a : Ipv4Address) : Bool := a.toNumber > ipv4.MIN_SIZE

/-- `previousAddress()`. -/
def previousAddress (a : Ipv4Address) : Except JsError (Option Ipv4Address) :=
  let prev := a.toNumber - 1
  if prev < ipv4.MIN_SIZE then .ok none
  else (mkIpv4Address (.num (.fin (prev : ℚ)))).map some

end Ipv4Address

/-- The `Ipv4Cidr` class: stored base address and range. -/
structure Ipv4Cidr where
  address : Ipv4Address
  range : ℤ
  deriving DecidableEq

/-- The `Ipv4Cidr` constructor: validate the literal, then decompose and
build the base address (propagating its errors). -/
def mkIpv4Cidr (l : Ipv4CidrLit) : Except JsError Ipv4Cidr :=
  if !ipv4.isValidCIDR l then .error (.invalidIpv4Cidr l)
  else match l with
    | .str s =>
      let parts := s.splitOn '/'
      (mkIpv4Address (.str (parts.getD 0 []))).map fun a =>
        ⟨a, jsNumToInt (jsParseInt10 (parts.getD 1 []))⟩
    | .tup a r => (mkIpv4Address a).map fun addr => ⟨addr, jsNumToInt r.toNum⟩
    | .obj a r => (mkIpv4Address a).map fun addr => ⟨addr, jsNumToInt r.toNum⟩
    | .nullish => .error (.invalidIpv4Cidr l)

namespace Ipv4Cidr

/-- `addressCount()`: `2 ** (32 - range)`. -/
def addressCount (c : Ipv4Cidr) : ℤ := 2 ^ ((32 - c.range).toNat)

/-- `hasNextCIDR()`. -/
def hasNextCIDR (c : Ipv4Cidr) : Bool :=
  c.address.toNumber + c.addressCount ≤ ipv4.MAX_SIZE

/-- `nextCIDR()`. -/
def nextCIDR (c : Ipv4Cidr) : Except JsError (Option Ipv4Cidr) :=
  let nextBase := c.address.toNumber + c.addressCount
  if nextBase > ipv4.MAX_SIZE then .ok none
  else (mkIpv4Cidr (.tup (.num (.fin (nextBase : ℚ))) (.num (.fin (c.range : ℚ))))).map some

/-- `subnet(newRange)`: range check, then one constructed sub-block per
index (a constructor throw aborts the loop). -/
def subnet (c : Ipv4Cidr) (newRange : ℤ) : Except JsError (List Ipv4Cidr) :=
  if newRange < c.range ∨ newRange > ipv4.MAX_RANGE then
    .error (.invalidIpv4CidrRange
      ("New range must be between current range and max".toList))
  else
    let totalSubnets := (2 ^ ((newRange - c.range).toNat) : ℤ)
    let baseNumber := c.address.toNumber
    let subnetSize := (2 ^ ((32 - newRange).toNat) : ℤ)
    (List.range totalSubnets.toNat).mapM fun i =>
      mkIpv4Cidr (.tup (.num (.fin ((baseNumber + i * subnetSize : ℤ) : ℚ)))
        (.num (.fin (newRange : ℚ))))

end Ipv4Cidr

end CidrBlock

namespace CidrBlock

/-! ## The `ipv6` namespace -/

/-- Lowercase or uppercase letter `f`. -/
def isFChar (c : Char) : Bool := c = 'f' || c = 'F'

/-- The groups of `\d{1,3}\.\d{1,3}\.\d{1,3}\.\d{1,3}`: exactly four
dot-separated groups of one to three decimal digits. -/
def dottedQuadGroups (s : List Char) : Option (List (List Char)) :=
  match s.splitOn '.' with
  | [a, b, c, d] =>
    if [a, b, c, d].all (fun g => !g.isEmpty && g.length ≤ 3 && g.all isDigitChar)
    then some [a, b, c, d] else none
  | _ => none

/-- The anchored case-insensitive regex
`^(::ffff:)(\d{1,3}\.\d{1,3}\.\d{1,3}\.\d{1,3})$`; returns the second
capture group (the dotted-decimal part) on a match. -/
def ipv4MappedMatch (s : List Char) : Option (List Char) :=
  match s with
  | ':' :: ':' :: f1 :: f2 :: f3 :: f4 :: ':' :: rest =>
    if isFChar f1 && isFChar f2 && isFChar f3 && isFChar f4
        && (dottedQuadGroups rest).isSome
    then some rest else none
  | _ => none

namespace ipv6

/-- `ipv6.MAX_SIZE = (1n << 128n) - 1n`. -/
def MAX_SIZE : ℤ := 2 ^ 128 - 1

/-- `ipv6.MIN_SIZE = 0n`. -/
def MIN_SIZE : ℤ := 0

/-- `ipv6.MAX_RANGE = 128`. -/
def MAX_RANGE : ℤ := 128

/-- `ipv6.MIN_RANGE = 0`. -/
def MIN_RANGE : ℤ := 0

/-- The per-hextet string checks: non-empty, at most four characters,
all in `[0-9a-fA-F]`, and the parsed value within [0, 0xffff]. -/
def hextetCheck (h : List Char) : Bool :=
  if h.isEmpty || h.length > 4 then false
  else if !(h.all isHexDigitChar) then false
  else
    let value := jsParseInt16 h
    !(value.lt (.fin 0)) && !(value.gt (.fin 65535))

/-- The `::` expansion of the validator, rejecting (`none`) when more
explicit groups are present than fit. -/
def expandChecked (s : List Char) : Option (List Char) :=
  let parts := jsSplitDC s
  let p0 := parts.getD 0 []
  let p1 := parts.getD 1 []
  let leftParts := if !p0.isEmpty then p0.splitOn ':' else []
  let rightParts := if !p1.isEmpty then p1.splitOn ':' else []
  let missing : ℤ := 8 - leftParts.length - rightParts.length
  if missing < 0 then none
  else some (List.intercalate [':']
    (leftParts ++ List.replicate missing.toNat ['0'] ++ rightParts))

/-- The `::` expansion of the parser (no negative-count check: it runs
only on validated strings). -/
def expandUnchecked (s : List Char) : List Char :=
  let parts := jsSplitDC s
  let p0 := parts.getD 0 []
  let p1 := parts.getD 1 []
  let leftParts := if !p0.isEmpty then p0.splitOn ':' else []
  let rightParts := if !p1.isEmpty then p1.splitOn ':' else []
  let missing : ℤ := 8 - leftParts.length - rightParts.length
  List.intercalate [':']
    (leftParts ++ List.replicate missing.toNat ['0'] ++ rightParts)

/-- `ipv6.isValidAddress`. -/
def isValidAddress : Ipv6AddrLit → Bool
  | .nullish => false
  | .big z => decide (MIN_SIZE ≤ z) && decide (z ≤ MAX_SIZE)
  | .arr xs =>
    xs.length = 8 && xs.all fun v =>
      v.isNumber && (v.toNum.isIntB && !(v.toNum.lt (.fin 0)) && !(v.toNum.gt (.fin 65535)))
  | .str s =>
    match ipv4MappedMatch s with
    | some ipv4Part =>
      let octets := (ipv4Part.splitOn '.').map jsToNumber
      octets.length = 4 && octets.all fun o => !(o.lt (.fin 0)) && !(o.gt (.fin 255))
    | none =>
      if countDC s > 1 then false
      else
        match (if hasDC s then expandChecked s else some s) with
        | none => false
        | some expanded =>
          let hextets := expanded.splitOn ':'
          hextets.length = 8 && hextets.all hextetCheck

/-- `ipv6.isValidCIDR`. -/
def isValidCIDR : Ipv6CidrLit → Bool
  | .nullish => false
  | .str s =>
    let parts := s.splitOn '/'
    if parts.length ≠ 2 then false
    else
      let address := Ipv6AddrLit.str (parts.getD 0 [])
      let range := jsParseInt10 (parts.getD 1 [])
      if !isValidAddress address then false
      else range.isIntB && !(range.lt (.fin (MIN_RANGE : ℚ))) && !(range.gt (.fin (MAX_RANGE : ℚ)))
  | .tup a r =>
    if a = .nullish then false
    else if !r.isNumber then false
    else if !isValidAddress a then false
    else
      let range := r.toNum
      range.isIntB && !(range.lt (.fin (MIN_RANGE : ℚ))) && !(range.gt (.fin (MAX_RANGE : ℚ)))
  | .obj a r =>
    if a = .nullish then false
    else if !r.isNumber then false
    else if !isValidAddress a then false
    else
      let range := r.toNum
      range.isIntB && !(range.lt (.fin (MIN_RANGE : ℚ))) && !(range.gt (.fin (MAX_RANGE : ℚ)))

/-- The eight-step `unshift`/`>>= 16n` loop of the bigint branch,
least-significant hextet first. -/
def bigToHextetsGo (z : ℤ) : ℕ → List ℤ
  | 0 => []
  | k + 1 => z.emod 65536 :: bigToHextetsGo (z.fdiv 65536) k

/-- The hextets of a bigint literal, most-significant first. -/
def bigToHextets (z : ℤ) : List ℤ := (bigToHextetsGo z 8).reverse

/-- `ipv6.parseHextets`. -/
def parseHextets (l : Ipv6AddrLit) : Except JsError (List ℤ) :=
  if !isValidAddress l then .error (.invalidIpv6Address l)
  else match l with
    | .big z => .ok (bigToHextets z)
    | .arr xs => .ok ((xs.map JsVal.toNum).map jsNumToInt)
    | .str s =>
      match ipv4MappedMatch s with
      | some ipv4Part =>
        let o := ((ipv4Part.splitOn '.').map jsToNumber).map jsNumToInt
        .ok [0, 0, 0, 0, 0, 65535,
          jsOr (jsShl (o.getD 0 0) 8) (o.getD 1 0),
          jsOr (jsShl (o.getD 2 0) 8) (o.getD 3 0)]
      | none =>
        let expanded := if hasDC s then expandUnchecked s else s
        .ok ((expanded.splitOn ':').map fun h => jsNumToInt (jsParseInt16 h))
    | .nullish => .error (.invalidIpv6Address l)

end ipv6

/-- The `Ipv6Address` class: a wrapper around its stored hextet array. -/
structure Ipv6Address where
  hextets : List ℤ
  deriving DecidableEq

/-- The `Ipv6Address` constructor: validate, then parse. -/
def mkIpv6Address (l : Ipv6AddrLit) : Except JsError Ipv6Address :=
  if !ipv6.isValidAddress l then .error (.invalidIpv6Address l)
  else (ipv6.parseHextets l).map Ipv6Address.mk

/-- `h.toString(16)` on a stored hextet (always a non-negative integer). -/
def hexRender (h : ℤ) : List Char := natToHexStr h.toNat

/-- The running state of the zero-run scan in `Ipv6Address.toString`:
`longestStart`, `longestLength`, `currentStart`, `currentLength`. -/
structure RunSt where
  ls : ℤ
  ll : ℤ
  cs : ℤ
  cl : ℤ
  deriving DecidableEq

/-- One step of the zero-run scan on `(index, hextet)`. -/
def runStep (st : RunSt) (p : ℕ × ℤ) : RunSt :=
  if p.2 = 0 then
    if st.cs = -1 then { st with cs := (p.1 : ℤ), cl := 1 }
    else { st with cl := st.cl + 1 }
  else
    if st.cl > st.ll ∧ st.cl > 1 then { ls := st.cs, ll := st.cl, cs := -1, cl := 0 }
    else { st with cs := -1, cl := 0 }

/-- The full scan, with the trailing-run check after the loop. -/
def scanZeroRuns (hx : List ℤ) : RunSt :=
  let st := hx.enum.foldl runStep ⟨-1, 0, -1, 0⟩
  if st.cl > st.ll ∧ st.cl > 1 then { ls := st.cs, ll := st.cl, cs := -1, cl := 0 }
  else st

namespace Ipv6Address

/-- `toString()`: compressed rendering with `::` for the selected run. -/
def toStr (a : Ipv6Address) : List Char :=
  let st := scanZeroRuns a.hextets
  if st.ls = -1 then List.intercalate [':'] (a.hextets.map hexRender)
  else
    let before := (a.hextets.take st.ls.toNat).map hexRender
    let after := (a.hextets.drop (st.ls + st.ll).toNat).map hexRender
    if before.isEmpty && after.isEmpty then [':', ':']
    else if before.isEmpty then ':' :: ':' :: List.intercalate [':'] after
    else if after.isEmpty then List.intercalate [':'] before ++ [':', ':']
    else List.intercalate [':'] before ++ ':' :: ':' :: List.intercalate [':'] after

/-- `toBigInt()`: `result = (result << 16n) | BigInt(hextet)` folded
over the eight hextets. -/
def toBigInt (a : Ipv6Address) : ℤ :=
  a.hextets.foldl (fun r h => Int.lor (r * 65536) h) 0

/-- `hasNextAddress()`. -/
def hasNextAddress (a : Ipv6Address) : Bool := a.toBigInt < ipv6.MAX_SIZE

/-- `nextAddress()`. -/
def nextAddress (a : Ipv6Address) : Except JsError (Option Ipv6Address) :=
  let next := a.toBigInt + 1
  if next > ipv6.MAX_SIZE then .ok none
  else (mkIpv6Address (.big next)).map some

/-- `hasPreviousAddress()`. -/
def hasPreviousAddress (a : Ipv6Address) : Bool := a.toBigInt > ipv6.MIN_SIZE

/-- `previousAddress()`. -/
def previousAddress (a : Ipv6Address) : Except JsError (Option Ipv6Address) :=
  let prev := a.toBigInt - 1
  if prev < ipv6.MIN_SIZE then .ok none
  else (mkIpv6Address (.big prev)).map some

end Ipv6Address

/-- The `Ipv6Cidr` class. -/
structure Ipv6Cidr where
  address : Ipv6Address
  range : ℤ
  deriving DecidableEq

/-- The `Ipv6Cidr` constructor. -/
def mkIpv6Cidr (l : Ipv6CidrLit) : Except JsError Ipv6Cidr :=
  if !ipv6.isValidCIDR l then .error (.invalidIpv6Cidr l)
  else match l with
    | .str s =>
      let parts := s.splitOn '/'
      (mkIpv6Address (.str (parts.getD 0 []))).map fun a =>
        ⟨a, jsNumToInt (jsParseInt10 (parts.getD 1 []))⟩
    | .tup a r => (mkIpv6Address a).map fun addr => ⟨addr, jsNumToInt r.toNum⟩
    | .obj a r => (mkIpv6Address a).map fun addr => ⟨addr, jsNumToInt r.toNum⟩
    | .nullish => .error (.invalidIpv6Cidr l)

namespace Ipv6Cidr

/-- `addressCount()`: `1n << BigInt(128 - range)`. -/
def addressCount (c : Ipv6Cidr) : ℤ := 2 ^ ((128 - c.range).toNat)

/-- `netmask()`: the special-cased zero range, else
`(1n << 128n) - (1n << BigInt(128 - range))`. -/
def netmask (c : Ipv6Cidr) : Except JsError Ipv6Address :=
  if c.range = 0 then mkIpv6Address (.big 0)
  else mkIpv6Address (.big (2 ^ 128 - 2 ^ ((128 - c.range).toNat)))

/-- `hasNextCIDR()`. -/
def hasNextCIDR (c : Ipv6Cidr) : Bool :=
  c.address.toBigInt + c.addressCount ≤ ipv6.MAX_SIZE

/-- `nextCIDR()`. -/
def nextCIDR (c : Ipv6Cidr) : Except JsError (Option Ipv6Cidr) :=
  let nextBase := c.address.toBigInt + c.addressCount
  if nextBase > ipv6.MAX_SIZE then .ok none
  else (mkIpv6Cidr (.tup (.big nextBase) (.num (.fin (c.range : ℚ))))).map some

/-- `subnet(newRange)`. -/
def subnet (c : Ipv6Cidr) (newRange : ℤ) : Except JsError (List Ipv6Cidr) :=
  if newRange < c.range ∨ newRange > ipv6.MAX_RANGE then
    .error (.invalidIpv6CidrRange
      ("New range must be between current range and max".toList))
  else
    let totalSubnets := (2 ^ ((newRange - c.range).toNat) : ℤ)
    let baseBigInt := c.address.toBigInt
    let subnetSize := (2 ^ ((128 - newRange).toNat) : ℤ)
    (List.range totalSubnets.toNat).mapM fun i =>
      mkIpv6Cidr (.tup (.big (baseBigInt + i * subnetSize)) (.num (.fin (newRange : ℚ))))

end Ipv6Cidr

end CidrBlock

namespace CidrBlock

/-! ## Specification-side definitions

These are written from the specification's words, to be compared with
the source-derived definitions above. -/

/-- From the claim on `ipv4.isValidAddress`: the string splits on `.`
into exactly four groups, each non-empty, at most three characters,
all decimal digits, denoting a value in [0, 255]. -/
def fourDottedDecimal (s : List Char) : Bool :=
  let groups := s.splitOn '.'
  groups.length = 4 && groups.all fun g =>
    !g.isEmpty && g.length ≤ 3 && g.all isDigitChar && decVal g ≤ 255

/-- Collect the maximal runs of `true` in a Boolean pattern, carrying
the run currently open, as (start index, length) pairs. -/
def trueRunsGo (i : ℕ) (cur : Option (ℕ × ℕ)) : List Bool → List (ℕ × ℕ)
  | [] => match cur with | none => [] | some r => [r]
  | true :: rest =>
    match cur with
    | none => trueRunsGo (i + 1) (some (i, 1)) rest
    | some (s, l) => trueRunsGo (i + 1) (some (s, l + 1)) rest
  | false :: rest =>
    match cur with
    | none => trueRunsGo (i + 1) none rest
    | some r => r :: trueRunsGo (i + 1) none rest

/-- All maximal runs of `true` in a Boolean pattern, as
(start index, length) pairs in left-to-right order. -/
def trueRuns (bs : List Bool) : List (ℕ × ℕ) := trueRunsGo 0 none bs

/-- From the specification: the longest run of length `> 1` of
consecutive zero hextets, the first (leftmost) maximal run winning
ties; `none` when no run of length `> 1` exists. -/
def bestZeroRun (bs : List Bool) : Option (ℕ × ℕ) :=
  (trueRuns bs).foldl
    (fun best r =>
      match best with
      | none => if 1 < r.2 then some r else none
      | some b => if b.2 < r.2 ∧ 1 < r.2 then some r else best)
    none

/-- From the specification of `Ipv6Address.toString`: replace the chosen
zero run by `::`, render all other hextets as lowercase hex without
leading zeros, join with `:`. -/
def specCompress (hx : List ℤ) : List Char :=
  match bestZeroRun (hx.map fun h => decide (h = 0)) with
  | none => List.intercalate [':'] (hx.map hexRender)
  | some (s, l) =>
    List.intercalate [':'] ((hx.take s).map hexRender)
      ++ ':' :: ':' :: List.intercalate [':'] ((hx.drop (s + l)).map hexRender)

/-! ## Proof-bridging definitions -/

/-- The zero-run scan step on a Boolean pattern (the source's step
depends on the hextet only through the `=== 0` test). -/
def runStepB (st : RunSt) (p : ℕ × Bool) : RunSt :=
  if p.2 then
    if st.cs = -1 then { st with cs := (p.1 : ℤ), cl := 1 }
    else { st with cl := st.cl + 1 }
  else
    if st.cl > st.ll ∧ st.cl > 1 then { ls := st.cs, ll := st.cl, cs := -1, cl := 0 }
    else { st with cs := -1, cl := 0 }

/-- The full scan on a Boolean pattern. -/
def scanZeroRunsB (bs : List Bool) : RunSt :=
  let st := bs.enum.foldl runStepB ⟨-1, 0, -1, 0⟩
  if st.cl > st.ll ∧ st.cl > 1 then { ls := st.cs, ll := st.cl, cs := -1, cl := 0 }
  else st

/-- Read the chosen run out of the scan state (`-1` meaning none). -/
def encodeScan (st : RunSt) : Option (ℕ × ℕ) :=
  if st.ls = -1 then none else some (st.ls.toNat, st.ll.toNat)

/-- No two adjacent colons. -/
def NoDCP (s : List Char) : Prop :=
  List.Chain' (fun a b => ¬(a = ':' ∧ b = ':')) s

/-- The invariant claimed for every produced `Ipv6Address`. -/
def Ipv6Inv (a : Ipv6Address) : Prop :=
  a.hextets.length = 8 ∧ ∀ h ∈ a.hextets, 0 ≤ h ∧ h ≤ 65535

end CidrBlock

namespace CidrBlock

/-! ## Character and digit-string lemmas -/

theorem charOfNat_toNat {n : ℕ} (h : n < 55296) : (Char.ofNat n).toNat = n := by
  have hv : n.isValidChar := Or.inl h
  simp only [Char.ofNat, hv, dif_pos, Char.ofNatAux, Char.toNat]
  simp [UInt32.toNat, BitVec.toNat_ofNat]

theorem digitToChar_toNat_lt10 {n : ℕ} (h : n < 10) : (digitToChar n).toNat = 48 + n := by
  rw [digitToChar, if_pos h]
  exact charOfNat_toNat (by omega)

theorem digitToChar_toNat_ge10 {n : ℕ} (h10 : 10 ≤ n) (h16 : n < 16) :
    (digitToChar n).toNat = 87 + n := by
  rw [digitToChar, if_neg (by omega)]
  exact charOfNat_toNat (by omega)

theorem isDigitChar_digitToChar {n : ℕ} (h : n < 10) : isDigitChar (digitToChar n) = true := by
  simp [isDigitChar, digitToChar_toNat_lt10 h]; omega

theorem digitVal_digitToChar {n : ℕ} (h : n < 10) : digitVal (digitToChar n) = n := by
  simp [digitVal, digitToChar_toNat_lt10 h]

theorem isHexDigitChar_digitToChar {n : ℕ} (h : n < 16) :
    isHexDigitChar (digitToChar n) = true := by
  rcases Nat.lt_or_ge n 10 with h10 | h10
  · simp [isHexDigitChar, isDigitChar, digitToChar_toNat_lt10 h10]; omega
  · simp [isHexDigitChar, isDigitChar, digitToChar_toNat_ge10 h10 h]; omega

theorem hexDigitVal_digitToChar {n : ℕ} (h : n < 16) : hexDigitVal (digitToChar n) = n := by
  rcases Nat.lt_or_ge n 10 with h10 | h10
  · have ht := digitToChar_toNat_lt10 h10
    have hd := isDigitChar_digitToChar h10
    simp [hexDigitVal, hd, ht]
  · have ht := digitToChar_toNat_ge10 h10 h
    unfold hexDigitVal
    split_ifs with h1 h2
    · exfalso
      simp only [isDigitChar, ht, Bool.and_eq_true, decide_eq_true_eq] at h1
      omega
    · rw [ht]; omega
    · exfalso
      simp only [ht, Bool.and_eq_true, decide_eq_true_eq] at h2
      omega

theorem isWsChar_eq_false_of_digit {c : Char} (h : isDigitChar c = true) :
    isWsChar c = false := by
  simp only [isDigitChar, Bool.and_eq_true, decide_eq_true_eq] at h
  simp only [isWsChar, Bool.or_eq_false_iff, decide_eq_false_iff_not]
  omega

theorem isWsChar_eq_false_of_hexDigit {c : Char} (h : isHexDigitChar c = true) :
    isWsChar c = false := by
  simp only [isHexDigitChar, isDigitChar, Bool.or_eq_true, Bool.and_eq_true,
    decide_eq_true_eq] at h
  simp only [isWsChar, Bool.or_eq_false_iff, decide_eq_false_iff_not]
  omega

theorem decVal_append_singleton (s : List Char) (c : Char) :
    decVal (s ++ [c]) = 10 * decVal s + digitVal c := by
  simp [decVal, List.foldl_append]

theorem hexVal_append_singleton (s : List Char) (c : Char) :
    hexVal (s ++ [c]) = 16 * hexVal s + hexDigitVal c := by
  simp [hexVal, List.foldl_append]

theorem natToDecStrAux_congr : ∀ (f1 f2 n : ℕ), n < f1 → n < f2 →
    natToDecStrAux f1 n = natToDecStrAux f2 n := by
  intro f1
  induction f1 with
  | zero => omega
  | succ k ih =>
    intro f2 n h1 h2
    cases f2 with
    | zero => omega
    | succ m =>
      by_cases hn : n < 10
      · simp [natToDecStrAux, hn]
      · have hdiv : n / 10 < n := Nat.div_lt_self (by omega) (by omega)
        simp only [natToDecStrAux, if_neg hn]
        rw [ih m (n / 10) (by omega) (by omega)]

theorem natToDecStr_eq (n : ℕ) : natToDecStr n =
    if n < 10 then [digitToChar n]
    else natToDecStr (n / 10) ++ [digitToChar (n % 10)] := by
  by_cases hn : n < 10
  · simp [natToDecStr, natToDecStrAux, hn]
  · have hdiv : n / 10 < n := Nat.div_lt_self (by omega) (by omega)
    rw [if_neg hn]
    show natToDecStrAux (n + 1) n = _
    rw [show natToDecStrAux (n + 1) n
          = if n < 10 then [digitToChar n]
            else natToDecStrAux n (n / 10) ++ [digitToChar (n % 10)] from rfl,
      if_neg hn,
      natToDecStrAux_congr n (n / 10 + 1) (n / 10) (by omega) (by omega)]
    rfl

theorem natToHexStrAux_congr : ∀ (f1 f2 n : ℕ), n < f1 → n < f2 →
    natToHexStrAux f1 n = natToHexStrAux f2 n := by
  intro f1
  induction f1 with
  | zero => omega
  | succ k ih =>
    intro f2 n h1 h2
    cases f2 with
    | zero => omega
    | succ m =>
      by_cases hn : n < 16
      · simp [natToHexStrAux, hn]
      · have hdiv : n / 16 < n := Nat.div_lt_self (by omega) (by omega)
        simp only [natToHexStrAux, if_neg hn]
        rw [ih m (n / 16) (by omega) (by omega)]

theorem natToHexStr_eq (n : ℕ) : natToHexStr n =
    if n < 16 then [digitToChar n]
    else natToHexStr (n / 16) ++ [digitToChar (n % 16)] := by
  by_cases hn : n < 16
  · simp [natToHexStr, natToHexStrAux, hn]
  · have hdiv : n / 16 < n := Nat.div_lt_self (by omega) (by omega)
    rw [if_neg hn]
    show natToHexStrAux (n + 1) n = _
    rw [show natToHexStrAux (n + 1) n
          = if n < 16 then [digitToChar n]
            else natToHexStrAux n (n / 16) ++ [digitToChar (n % 16)] from rfl,
      if_neg hn,
      natToHexStrAux_congr n (n / 16 + 1) (n / 16) (by omega) (by omega)]
    rfl

theorem decVal_natToDecStr (n : ℕ) : decVal (natToDecStr n) = n := by
  induction n using Nat.strong_induction_on with
  | _ n ih =>
    by_cases hn : n < 10
    · rw [natToDecStr_eq, if_pos hn]
      simp [decVal, digitVal_digitToChar hn]
    · rw [natToDecStr_eq, if_neg hn, decVal_append_singleton,
        ih (n / 10) (Nat.div_lt_self (by omega) (by omega)),
        digitVal_digitToChar (Nat.mod_lt _ (by omega))]
      omega

theorem hexVal_natToHexStr (n : ℕ) : hexVal (natToHexStr n) = n := by
  induction n using Nat.strong_induction_on with
  | _ n ih =>
    by_cases hn : n < 16
    · rw [natToHexStr_eq, if_pos hn]
      simp [hexVal, hexDigitVal_digitToChar hn]
    · rw [natToHexStr_eq, if_neg hn, hexVal_append_singleton,
        ih (n / 16) (Nat.div_lt_self (by omega) (by omega)),
        hexDigitVal_digitToChar (Nat.mod_lt _ (by omega))]
      omega

theorem natToDecStr_ne_nil (n : ℕ) : natToDecStr n ≠ [] := by
  rw [natToDecStr_eq]
  by_cases hn : n < 10 <;> simp [hn]

theorem natToHexStr_ne_nil (n : ℕ) : natToHexStr n ≠ [] := by
  rw [natToHexStr_eq]
  by_cases hn : n < 16 <;> simp [hn]

theorem mem_natToDecStr_digit {n : ℕ} : ∀ c ∈ natToDecStr n, isDigitChar c = true := by
  induction n using Nat.strong_induction_on with
  | _ n ih =>
    rw [natToDecStr_eq]
    by_cases hn : n < 10
    · simp only [if_pos hn, List.mem_singleton]
      rintro c rfl
      exact isDigitChar_digitToChar hn
    · simp only [if_neg hn, List.mem_append, List.mem_singleton]
      rintro c (hc | rfl)
      · exact ih (n / 10) (Nat.div_lt_self (by omega) (by omega)) c hc
      · exact isDigitChar_digitToChar (Nat.mod_lt _ (by omega))

theorem mem_natToHexStr_hexDigit {n : ℕ} : ∀ c ∈ natToHexStr n, isHexDigitChar c = true := by
  induction n using Nat.strong_induction_on with
  | _ n ih =>
    rw [natToHexStr_eq]
    by_cases hn : n < 16
    · simp only [if_pos hn, List.mem_singleton]
      rintro c rfl
      exact isHexDigitChar_digitToChar hn
    · simp only [if_neg hn, List.mem_append, List.mem_singleton]
      rintro c (hc | rfl)
      · exact ih (n / 16) (Nat.div_lt_self (by omega) (by omega)) c hc
      · exact isHexDigitChar_digitToChar (Nat.mod_lt _ (by omega))

theorem natToHexStr_length_le : ∀ (k n : ℕ), n < 16 ^ (k + 1) →
    (natToHexStr n).length ≤ k + 1 := by
  intro k
  induction k with
  | zero =>
    intro n h
    rw [natToHexStr_eq, if_pos (by omega)]
    simp
  | succ m ih =>
    intro n h
    rw [natToHexStr_eq]
    by_cases hn : n < 16
    · rw [if_pos hn]
      simp only [List.length_singleton]
      omega
    · rw [if_neg hn]
      have : n / 16 < 16 ^ (m + 1) := by
        rw [Nat.div_lt_iff_lt_mul (by omega)]
        calc n < 16 ^ (m + 1 + 1) := h
        _ = 16 ^ (m + 1) * 16 := by ring
      have := ih (n / 16) this
      simp only [List.length_append, List.length_cons, List.length_nil]
      omega

end CidrBlock

namespace CidrBlock

/-! ## ToNumber / parseInt on plain digit strings -/

theorem dropWhile_eq_self_of_all {p : Char → Bool} {s : List Char}
    (h : ∀ c ∈ s, p c = false) : s.dropWhile p = s := by
  cases s with
  | nil => rfl
  | cons a t =>
    rw [List.dropWhile_cons, h a (by simp)]
    simp

theorem trimWs_eq_self {s : List Char} (h : ∀ c ∈ s, isWsChar c = false) : trimWs s = s := by
  unfold trimWs
  rw [dropWhile_eq_self_of_all h,
    dropWhile_eq_self_of_all (fun c hc => h c (List.mem_reverse.mp hc)),
    List.reverse_reverse]

theorem ratTrunc_intCast (z : ℤ) : ratTrunc ((z : ℤ) : ℚ) = z := by
  unfold ratTrunc
  split_ifs with h
  · exact Int.floor_intCast z
  · have : (-(z : ℚ)) = ((-z : ℤ) : ℚ) := by push_cast; ring
    rw [this, Int.floor_intCast]
    ring

theorem jsNumToInt_intCast (z : ℤ) : jsNumToInt (.fin ((z : ℤ) : ℚ)) = z := by
  simp [jsNumToInt, ratTrunc_intCast]

theorem jsNum_lt_fin (a b : ℚ) : JsNum.lt (.fin a) (.fin b) = decide (a < b) := rfl

theorem jsNum_gt_fin (a b : ℚ) : JsNum.gt (.fin a) (.fin b) = decide (b < a) := rfl

theorem jsNum_isIntB_intCast (z : ℤ) : JsNum.isIntB (.fin ((z : ℤ) : ℚ)) = true := by
  simp [JsNum.isIntB]

theorem take_one_cons (c0 : Char) (t : List Char) : (c0 :: t).take 1 = [c0] := rfl

theorem take2_second {c0 : Char} {t : List Char} {p : Char → Bool}
    (hd : ∀ c ∈ c0 :: t, p c = true)
    {x y : Char} (h : (c0 :: t).take 2 = [x, y]) : p y = true := by
  cases t with
  | nil => simp [List.take] at h
  | cons c1 t2 =>
    have h2 : (c0 :: c1 :: t2).take 2 = [c0, c1] := rfl
    rw [h2] at h
    simp only [List.cons.injEq, and_true] at h
    exact h.2 ▸ hd c1 (by simp)

theorem jsUnsignedDec_digits {s : List Char} (hne : s ≠ [])
    (hd : ∀ c ∈ s, isDigitChar c = true) (sg : ℤ) :
    jsUnsignedDec s sg = .fin ((sg * (decVal s : ℤ) : ℤ) : ℚ) := by
  have hinf : s ≠ ['I', 'n', 'f', 'i', 'n', 'i', 't', 'y'] := by
    intro h
    have := hd 'I' (by rw [h]; simp)
    simp [isDigitChar] at this
  unfold jsUnsignedDec
  rw [if_neg hinf]
  simp only [List.takeWhile_eq_self_iff.mpr hd, List.dropWhile_eq_nil_iff.mpr hd]
  simp [hne]

theorem jsSignedDec_digits {s : List Char} (hne : s ≠ [])
    (hd : ∀ c ∈ s, isDigitChar c = true) :
    jsSignedDec s = .fin ((decVal s : ℤ) : ℚ) := by
  obtain ⟨c0, t, rfl⟩ : ∃ c0 t, s = c0 :: t := by
    cases s with
    | nil => exact absurd rfl hne
    | cons a t => exact ⟨a, t, rfl⟩
  have hc0 := hd c0 (by simp)
  unfold jsSignedDec
  rw [if_neg ?hp, if_neg ?hm]
  case hp =>
    rw [take_one_cons]
    intro h
    obtain rfl : c0 = '+' := by injection h
    simp [isDigitChar] at hc0
  case hm =>
    rw [take_one_cons]
    intro h
    obtain rfl : c0 = '-' := by injection h
    simp [isDigitChar] at hc0
  rw [jsUnsignedDec_digits hne hd 1]
  simp

theorem jsToNumber_digits {s : List Char} (hne : s ≠ [])
    (hd : ∀ c ∈ s, isDigitChar c = true) :
    jsToNumber s = .fin ((decVal s : ℤ) : ℚ) := by
  have htrim : trimWs s = s :=
    trimWs_eq_self (fun c hc => isWsChar_eq_false_of_digit (hd c hc))
  unfold jsToNumber
  rw [htrim, if_neg hne]
  rw [if_neg ?hx, if_neg ?ho, if_neg ?hb]
  case hx =>
    obtain ⟨c0, t, rfl⟩ : ∃ c0 t, s = c0 :: t := by
      cases s with
      | nil => exact absurd rfl hne
      | cons a t => exact ⟨a, t, rfl⟩
    rintro (h | h)
    · have := take2_second hd h
      simp [isDigitChar] at this
    · have := take2_second hd h
      simp [isDigitChar] at this
  case ho =>
    obtain ⟨c0, t, rfl⟩ : ∃ c0 t, s = c0 :: t := by
      cases s with
      | nil => exact absurd rfl hne
      | cons a t => exact ⟨a, t, rfl⟩
    rintro (h | h)
    · have := take2_second hd h
      simp [isDigitChar] at this
    · have := take2_second hd h
      simp [isDigitChar] at this
  case hb =>
    obtain ⟨c0, t, rfl⟩ : ∃ c0 t, s = c0 :: t := by
      cases s with
      | nil => exact absurd rfl hne
      | cons a t => exact ⟨a, t, rfl⟩
    rintro (h | h)
    · have := take2_second hd h
      simp [isDigitChar] at this
    · have := take2_second hd h
      simp [isDigitChar] at this
  exact jsSignedDec_digits hne hd

theorem jsParseInt16_hexDigits {s : List Char} (hne : s ≠ [])
    (hd : ∀ c ∈ s, isHexDigitChar c = true) :
    jsParseInt16 s = .fin ((hexVal s : ℤ) : ℚ) := by
  have htrim : s.dropWhile isWsChar = s :=
    dropWhile_eq_self_of_all (fun c hc => isWsChar_eq_false_of_hexDigit (hd c hc))
  obtain ⟨c0, t, rfl⟩ : ∃ c0 t, s = c0 :: t := by
    cases s with
    | nil => exact absurd rfl hne
    | cons a t => exact ⟨a, t, rfl⟩
  have hc0 := hd c0 (by simp)
  have hc0n : 48 ≤ c0.toNat ∧ c0.toNat ≤ 102 := by
    simp only [isHexDigitChar, isDigitChar, Bool.or_eq_true, Bool.and_eq_true,
      decide_eq_true_eq] at hc0
    omega
  have hp : ¬((c0 :: t).take 1 = ['+']) := by
    rw [take_one_cons]
    intro h
    obtain rfl : c0 = '+' := by injection h
    simp at hc0n
  have hm : ¬((c0 :: t).take 1 = ['-']) := by
    rw [take_one_cons]
    intro h
    obtain rfl : c0 = '-' := by injection h
    simp at hc0n
  have hor1 : ¬((c0 :: t).take 1 = ['+'] ∨ (c0 :: t).take 1 = ['-']) := by
    rintro (h | h)
    · exact hp h
    · exact hm h
  have hx1 : ¬((c0 :: t).take 2 = ['0', 'x']) := by
    intro h
    have := take2_second hd h
    simp [isHexDigitChar, isDigitChar] at this
  have hx2 : ¬((c0 :: t).take 2 = ['0', 'X']) := by
    intro h
    have := take2_second hd h
    simp [isHexDigitChar, isDigitChar] at this
  have hor2 : ¬((c0 :: t).take 2 = ['0', 'x'] ∨ (c0 :: t).take 2 = ['0', 'X']) := by
    rintro (h | h)
    · exact hx1 h
    · exact hx2 h
  simp only [jsParseInt16, htrim]
  rw [if_neg hm, if_neg hor1, if_neg hor2, List.takeWhile_eq_self_iff.mpr hd, if_neg hne]
  simp

end CidrBlock

namespace CidrBlock

/-! ## Claim C1 -/

/-- C1: REFUTED on the code.  The address constructed from
"192.168.1.1" has octets [192, 168, 1, 1] as claimed, but `toNumber()`
is computed with JavaScript signed 32-bit operators and no `>>> 0`, so
it returns -1062731519, not the canonical unsigned integer 3232235777
the claim (and the repository's own tests) state. -/
theorem C1_toNumber_signed_bug :
    (mkIpv4Address (.str ("192.168.1.1".toList))).map Ipv4Address.octets
      = .ok [192, 168, 1, 1]
    ∧ (mkIpv4Address (.str ("192.168.1.1".toList))).map Ipv4Address.toNumber
      = .ok (-1062731519)
    ∧ (-1062731519 : ℤ) ≠ 3232235777 := by
  refine ⟨by decide, by decide, by decide⟩

/-! ## Claim C2 -/

/-- C2: REFUTED on the code for IPv4.  At the claimed boundary address
255.255.255.255 (whose signed `toNumber()` is -1), `hasNextAddress()`
returns true and `nextAddress()` returns the address 0.0.0.0 instead of
no value, contradicting the claim (and the repository's own tests and
doc comments).  The minimum-boundary half fails symmetrically: because
`toNumber()` is negative for 128.0.0.0, `hasPreviousAddress()` is false
there even though the address is not 0.0.0.0. -/
theorem C2_boundary_next_bug :
    (mkIpv4Address (.str ("255.255.255.255".toList))).map Ipv4Address.hasNextAddress
      = .ok true
    ∧ (mkIpv4Address (.str ("255.255.255.255".toList))).bind Ipv4Address.nextAddress
      = .ok (some ⟨[0, 0, 0, 0]⟩)
    ∧ (mkIpv4Address (.str ("128.0.0.0".toList))).map Ipv4Address.hasPreviousAddress
      = .ok false := by
  refine ⟨by decide, by decide, by decide⟩

/-! ## Claim C3 -/

/-- C3: REFUTED on the code for IPv4.  `cidr("255.255.255.0/24")` has
signed base number -256, so `hasNextCIDR()` returns true and
`nextCIDR()` returns the block 0.0.0.0/24 instead of the claimed
undefined, contradicting the claim (and the repository's own tests). -/
theorem C3_nextCIDR_boundary_bug :
    (mkIpv4Cidr (.str ("255.255.255.0/24".toList))).map Ipv4Cidr.hasNextCIDR
      = .ok true
    ∧ (mkIpv4Cidr (.str ("255.255.255.0/24".toList))).bind Ipv4Cidr.nextCIDR
      = .ok (some ⟨⟨[0, 0, 0, 0]⟩, 24⟩) := by
  refine ⟨by decide, by decide⟩

/-! ## Claim C7 -/

/-- C7: REFUTED on the code for IPv4.  `cidr("192.168.0.0/24").subnet(26)`
throws (the signed base number -1062731776 makes every sub-block
constructor reject its negative numeric literal) instead of returning
the four /26 blocks its own tests expect; the IPv6 side behaves as
claimed, as the 2001:db8::/32 → /34 example shows. -/
theorem C7_subnet_bug :
    (mkIpv4Cidr (.str ("192.168.0.0/24".toList))).bind (fun c => c.subnet 26)
      = .error (.invalidIpv4Cidr (.tup (.num (.fin (-1062731776))) (.num (.fin 26))))
    ∧ (mkIpv6Cidr (.str ("2001:db8::/32".toList))).bind (fun c => c.subnet 34)
      = .ok [⟨⟨[0x2001, 0xdb8, 0, 0, 0, 0, 0, 0]⟩, 34⟩,
             ⟨⟨[0x2001, 0xdb8, 0x4000, 0, 0, 0, 0, 0]⟩, 34⟩,
             ⟨⟨[0x2001, 0xdb8, 0x8000, 0, 0, 0, 0, 0]⟩, 34⟩,
             ⟨⟨[0x2001, 0xdb8, 0xc000, 0, 0, 0, 0, 0]⟩, 34⟩] := by
  refine ⟨by decide, by decide⟩

/-! ## Claim C4 -/

/-- C4: COUNTEREXAMPLE.  The string "1.2.3." is accepted by
`ipv4.isValidAddress` (its empty final group is coerced by `Number` to
0) although it violates the claimed characterisation, which requires
every group to be non-empty. -/
theorem C4_counterexample :
    ipv4.isValidAddress (.str ("1.2.3.".toList)) = true
    ∧ fourDottedDecimal ("1.2.3.".toList) = false := by
  refine ⟨by decide, by decide⟩

/-- C4 (amended): every string of the claimed shape — four non-empty
groups of at most three decimal digits each denoting a value in
[0, 255] — is accepted by `ipv4.isValidAddress`; the converse of the
claim fails (see the counterexample). -/
theorem C4_amended (s : List Char) (h : fourDottedDecimal s = true) :
    ipv4.isValidAddress (.str s) = true := by
  simp only [fourDottedDecimal, Bool.and_eq_true, List.all_eq_true,
    decide_eq_true_eq] at h
  obtain ⟨hlen, hall⟩ := h
  simp only [ipv4.isValidAddress, ipv4.octetsCheck, Bool.and_eq_true, List.all_eq_true,
    List.length_map, decide_eq_true_eq]
  refine ⟨hlen, ?_⟩
  intro o ho
  obtain ⟨g, hg, rfl⟩ := List.mem_map.mp ho
  have hgood := hall g hg
  simp only [Bool.and_eq_true, Bool.not_eq_eq_eq_not, Bool.not_true, List.isEmpty_eq_false,
    decide_eq_true_eq] at hgood
  obtain ⟨⟨⟨hne, hlen3⟩, hdig⟩, hval⟩ := hgood
  rw [jsToNumber_digits hne hdig]
  refine ⟨⟨jsNum_isIntB_intCast _, ?_⟩, ?_⟩
  · simp only [jsNum_lt_fin, Bool.not_eq_true', decide_eq_false_iff_not, not_lt]
    push_cast
    positivity
  · simp only [jsNum_gt_fin, Bool.not_eq_true', decide_eq_false_iff_not, not_lt]
    exact_mod_cast hval

/-- C4 witness: the amended theorem applied at "192.168.1.1". -/
theorem C4_witness :
    fourDottedDecimal ("192.168.1.1".toList) = true
    ∧ ipv4.isValidAddress (.str ("192.168.1.1".toList)) = true :=
  ⟨by decide, C4_amended ("192.168.1.1".toList) (by decide)⟩

end CidrBlock

namespace CidrBlock

/-! ## Constructor / validator agreement lemmas -/

theorem exceptExistsOk {ε α : Type} {e : Except ε α} (h : e.isOk = true) :
    ∃ a, e = .ok a := by
  cases e with
  | error e => simp [Except.isOk, Except.toBool] at h
  | ok a => exact ⟨a, rfl⟩

theorem parseOctets_isOk_of_valid {l : Ipv4AddrLit} (h : ipv4.isValidAddress l = true) :
    (ipv4.parseOctets l).isOk = true := by
  unfold ipv4.parseOctets
  rw [h]
  cases l with
  | str s => rfl
  | num x => rfl
  | arr xs => rfl
  | nullish => simp [ipv4.isValidAddress] at h

theorem mkIpv4Address_ok_of_valid {l : Ipv4AddrLit} (h : ipv4.isValidAddress l = true) :
    ∃ a, mkIpv4Address l = .ok a := by
  obtain ⟨os, hos⟩ := exceptExistsOk (parseOctets_isOk_of_valid h)
  exact ⟨⟨os⟩, by simp [mkIpv4Address, h, hos, Except.map]⟩

theorem mkIpv4Address_error_of_invalid {l : Ipv4AddrLit} (h : ipv4.isValidAddress l = false) :
    mkIpv4Address l = .error (.invalidIpv4Address l) := by
  simp [mkIpv4Address, h]

theorem parseHextets_isOk_of_valid {l : Ipv6AddrLit} (h : ipv6.isValidAddress l = true) :
    (ipv6.parseHextets l).isOk = true := by
  unfold ipv6.parseHextets
  rw [h]
  cases l with
  | str s =>
    cases hm : ipv4MappedMatch s with
    | some p => simp [hm, Except.isOk, Except.toBool]
    | none => simp [hm, Except.isOk, Except.toBool]
  | big z => rfl
  | arr xs => rfl
  | nullish => simp [ipv6.isValidAddress] at h

theorem mkIpv6Address_ok_of_valid {l : Ipv6AddrLit} (h : ipv6.isValidAddress l = true) :
    ∃ a, mkIpv6Address l = .ok a := by
  obtain ⟨hx, hhx⟩ := exceptExistsOk (parseHextets_isOk_of_valid h)
  exact ⟨⟨hx⟩, by simp [mkIpv6Address, h, hhx, Except.map]⟩

theorem mkIpv6Address_error_of_invalid {l : Ipv6AddrLit} (h : ipv6.isValidAddress l = false) :
    mkIpv6Address l = .error (.invalidIpv6Address l) := by
  simp [mkIpv6Address, h]

theorem isValidCIDR4_str_validAddress {s : List Char}
    (h : ipv4.isValidCIDR (.str s) = true) :
    ipv4.isValidAddress (.str ((s.splitOn '/').getD 0 [])) = true := by
  simp only [ipv4.isValidCIDR] at h
  split_ifs at h with h1 h2
  all_goals simp_all

theorem isValidCIDR4_tup_validAddress {a : Ipv4AddrLit} {r : JsVal}
    (h : ipv4.isValidCIDR (.tup a r) = true) : ipv4.isValidAddress a = true := by
  simp only [ipv4.isValidCIDR] at h
  split_ifs at h with h1 h2 h3
  all_goals simp_all

theorem isValidCIDR4_obj_validAddress {a : Ipv4AddrLit} {r : JsVal}
    (h : ipv4.isValidCIDR (.obj a r) = true) : ipv4.isValidAddress a = true := by
  simp only [ipv4.isValidCIDR] at h
  split_ifs at h with h1 h2 h3
  all_goals simp_all

theorem isValidCIDR6_str_validAddress {s : List Char}
    (h : ipv6.isValidCIDR (.str s) = true) :
    ipv6.isValidAddress (.str ((s.splitOn '/').getD 0 [])) = true := by
  simp only [ipv6.isValidCIDR] at h
  split_ifs at h with h1 h2
  all_goals simp_all

theorem isValidCIDR6_tup_validAddress {a : Ipv6AddrLit} {r : JsVal}
    (h : ipv6.isValidCIDR (.tup a r) = true) : ipv6.isValidAddress a = true := by
  simp only [ipv6.isValidCIDR] at h
  split_ifs at h with h1 h2 h3
  all_goals simp_all

theorem isValidCIDR6_obj_validAddress {a : Ipv6AddrLit} {r : JsVal}
    (h : ipv6.isValidCIDR (.obj a r) = true) : ipv6.isValidAddress a = true := by
  simp only [ipv6.isValidCIDR] at h
  split_ifs at h with h1 h2 h3
  all_goals simp_all

theorem mkIpv4Cidr_isOk_of_valid {l : Ipv4CidrLit} (h : ipv4.isValidCIDR l = true) :
    (mkIpv4Cidr l).isOk = true := by
  unfold mkIpv4Cidr
  rw [h]
  cases l with
  | str s =>
    obtain ⟨a, ha⟩ := mkIpv4Address_ok_of_valid (isValidCIDR4_str_validAddress h)
    simp only [List.getD_eq_getElem?_getD] at ha
    simp [ha, Except.map, Except.isOk, Except.toBool]
  | tup a r =>
    obtain ⟨addr, ha⟩ := mkIpv4Address_ok_of_valid (isValidCIDR4_tup_validAddress h)
    simp [ha, Except.map, Except.isOk, Except.toBool]
  | obj a r =>
    obtain ⟨addr, ha⟩ := mkIpv4Address_ok_of_valid (isValidCIDR4_obj_validAddress h)
    simp [ha, Except.map, Except.isOk, Except.toBool]
  | nullish => simp [ipv4.isValidCIDR] at h

theorem mkIpv4Cidr_error_of_invalid {l : Ipv4CidrLit} (h : ipv4.isValidCIDR l = false) :
    mkIpv4Cidr l = .error (.invalidIpv4Cidr l) := by
  simp [mkIpv4Cidr, h]

theorem mkIpv6Cidr_isOk_of_valid {l : Ipv6CidrLit} (h : ipv6.isValidCIDR l = true) :
    (mkIpv6Cidr l).isOk = true := by
  unfold mkIpv6Cidr
  rw [h]
  cases l with
  | str s =>
    obtain ⟨a, ha⟩ := mkIpv6Address_ok_of_valid (isValidCIDR6_str_validAddress h)
    simp only [List.getD_eq_getElem?_getD] at ha
    simp [ha, Except.map, Except.isOk, Except.toBool]
  | tup a r =>
    obtain ⟨addr, ha⟩ := mkIpv6Address_ok_of_valid (isValidCIDR6_tup_validAddress h)
    simp [ha, Except.map, Except.isOk, Except.toBool]
  | obj a r =>
    obtain ⟨addr, ha⟩ := mkIpv6Address_ok_of_valid (isValidCIDR6_obj_validAddress h)
    simp [ha, Except.map, Except.isOk, Except.toBool]
  | nullish => simp [ipv6.isValidCIDR] at h

theorem mkIpv6Cidr_error_of_invalid {l : Ipv6CidrLit} (h : ipv6.isValidCIDR l = false) :
    mkIpv6Cidr l = .error (.invalidIpv6Cidr l) := by
  simp [mkIpv6Cidr, h]

end CidrBlock

namespace CidrBlock

/-! ## Claim C8 -/

/-- C8: CONFIRMED.  For both families and for both Address and Cidr, the
constructor succeeds exactly on the literals the validation predicate
accepts, and on a rejected literal it fails with the family's typed
format error carrying the offending literal.  (The predicates
themselves are total Lean functions, hence never throw.) -/
theorem C8_validator_constructor_agreement :
    (∀ l : Ipv4AddrLit, (mkIpv4Address l).isOk = ipv4.isValidAddress l
      ∧ (ipv4.isValidAddress l = false →
          mkIpv4Address l = .error (.invalidIpv4Address l)))
    ∧ (∀ l : Ipv6AddrLit, (mkIpv6Address l).isOk = ipv6.isValidAddress l
      ∧ (ipv6.isValidAddress l = false →
          mkIpv6Address l = .error (.invalidIpv6Address l)))
    ∧ (∀ l : Ipv4CidrLit, (mkIpv4Cidr l).isOk = ipv4.isValidCIDR l
      ∧ (ipv4.isValidCIDR l = false →
          mkIpv4Cidr l = .error (.invalidIpv4Cidr l)))
    ∧ (∀ l : Ipv6CidrLit, (mkIpv6Cidr l).isOk = ipv6.isValidCIDR l
      ∧ (ipv6.isValidCIDR l = false →
          mkIpv6Cidr l = .error (.invalidIpv6Cidr l))) := by
  refine ⟨fun l => ⟨?_, mkIpv4Address_error_of_invalid⟩,
    fun l => ⟨?_, mkIpv6Address_error_of_invalid⟩,
    fun l => ⟨?_, mkIpv4Cidr_error_of_invalid⟩,
    fun l => ⟨?_, mkIpv6Cidr_error_of_invalid⟩⟩
  · cases hv : ipv4.isValidAddress l with
    | true =>
      obtain ⟨a, ha⟩ := mkIpv4Address_ok_of_valid hv
      rw [ha]; rfl
    | false => rw [mkIpv4Address_error_of_invalid hv]; rfl
  · cases hv : ipv6.isValidAddress l with
    | true =>
      obtain ⟨a, ha⟩ := mkIpv6Address_ok_of_valid hv
      rw [ha]; rfl
    | false => rw [mkIpv6Address_error_of_invalid hv]; rfl
  · cases hv : ipv4.isValidCIDR l with
    | true => rw [mkIpv4Cidr_isOk_of_valid hv]
    | false => rw [mkIpv4Cidr_error_of_invalid hv]; rfl
  · cases hv : ipv6.isValidCIDR l with
    | true => rw [mkIpv6Cidr_isOk_of_valid hv]
    | false => rw [mkIpv6Cidr_error_of_invalid hv]; rfl

/-- C8 witness: the agreement theorem applied to the rejected literal
"999.1.1.1" and to the accepted literal "2001:db8::/32". -/
theorem C8_witness :
    mkIpv4Address (.str ("999.1.1.1".toList))
      = .error (.invalidIpv4Address (.str ("999.1.1.1".toList)))
    ∧ (mkIpv6Cidr (.str ("2001:db8::/32".toList))).isOk
      = ipv6.isValidCIDR (.str ("2001:db8::/32".toList)) :=
  ⟨(C8_validator_constructor_agreement.1 (.str ("999.1.1.1".toList))).2 (by decide),
   (C8_validator_constructor_agreement.2.2.2 (.str ("2001:db8::/32".toList))).1⟩

end CidrBlock

namespace CidrBlock

/-! ## Bounds for parsed hextets -/

theorem hexDigitVal_lt {c : Char} (h : isHexDigitChar c = true) : hexDigitVal c < 16 := by
  have hcase : (48 ≤ c.toNat ∧ c.toNat ≤ 57 ∨ 97 ≤ c.toNat ∧ c.toNat ≤ 102)
      ∨ 65 ≤ c.toNat ∧ c.toNat ≤ 70 := by
    simpa [isHexDigitChar, isDigitChar] using h
  unfold hexDigitVal
  by_cases h1 : isDigitChar c = true
  · rw [if_pos h1]
    have hd : 48 ≤ c.toNat ∧ c.toNat ≤ 57 := by simpa [isDigitChar] using h1
    omega
  · rw [if_neg h1]
    have hnd : ¬(48 ≤ c.toNat ∧ c.toNat ≤ 57) := by
      intro hcontra
      exact h1 (by simp only [isDigitChar, Bool.and_eq_true, decide_eq_true_eq]; omega)
    by_cases h2 : (97 ≤ c.toNat && c.toNat ≤ 102) = true
    · rw [if_pos h2]
      have hl : 97 ≤ c.toNat ∧ c.toNat ≤ 102 := by simpa using h2
      omega
    · rw [if_neg h2]
      have hn2 : ¬(97 ≤ c.toNat ∧ c.toNat ≤ 102) := by
        intro hcontra
        exact h2 (by simp only [Bool.and_eq_true, decide_eq_true_eq]; omega)
      rcases hcase with (hcase | hcase) | hcase <;> omega

theorem hexVal_lt {s : List Char} (h : ∀ c ∈ s, isHexDigitChar c = true) :
    hexVal s < 16 ^ s.length := by
  induction s using List.reverseRecOn with
  | nil => simp [hexVal]
  | append_singleton t c ih =>
    rw [hexVal_append_singleton]
    have h1 := ih (fun x hx => h x (by simp [hx]))
    have h2 := hexDigitVal_lt (h c (by simp))
    simp only [List.length_append, List.length_singleton]
    calc 16 * hexVal t + hexDigitVal c < 16 * hexVal t + 16 := by omega
    _ = 16 * (hexVal t + 1) := by ring
    _ ≤ 16 * 16 ^ t.length := by
        have : hexVal t + 1 ≤ 16 ^ t.length := h1
        omega
    _ = 16 ^ (t.length + 1) := by ring

theorem toUint32_of_small {n : ℤ} (h0 : 0 ≤ n) (h : n < 4294967296) : toUint32 n = n :=
  Int.emod_eq_of_lt h0 h

theorem toInt32_of_small {n : ℤ} (h0 : 0 ≤ n) (h : n < 2147483648) : toInt32 n = n := by
  unfold toInt32
  rw [toUint32_of_small h0 (by omega)]
  simp [h]

theorem jsOr_bound16 {x y : ℤ} (hx0 : 0 ≤ x) (hx : x < 65536) (hy0 : 0 ≤ y)
    (hy : y < 65536) : 0 ≤ jsOr x y ∧ jsOr x y < 65536 := by
  unfold jsOr
  rw [toUint32_of_small hx0 (by omega), toUint32_of_small hy0 (by omega)]
  have hxn : x.toNat < 2 ^ 16 := by omega
  have hyn : y.toNat < 2 ^ 16 := by omega
  have hor := Nat.or_lt_two_pow hxn hyn
  rw [toInt32_of_small (by positivity) (by exact_mod_cast lt_trans hor (by norm_num))]
  constructor
  · positivity
  · exact_mod_cast hor

theorem jsShl8_of_byte {a : ℤ} (h0 : 0 ≤ a) (h : a ≤ 255) : jsShl a 8 = a * 256 := by
  unfold jsShl
  rw [toInt32_of_small h0 (by omega)]
  norm_num
  rw [toInt32_of_small (by positivity) (by nlinarith)]

theorem hextetCheck_facts {h : List Char} (hc : ipv6.hextetCheck h = true) :
    h ≠ [] ∧ h.length ≤ 4 ∧ ∀ c ∈ h, isHexDigitChar c = true := by
  unfold ipv6.hextetCheck at hc
  by_cases h1 : (h.isEmpty || decide (h.length > 4)) = true
  · rw [if_pos h1] at hc
    exact absurd hc (by simp)
  · rw [if_neg h1] at hc
    by_cases h2 : (!h.all isHexDigitChar) = true
    · rw [if_pos h2] at hc
      exact absurd hc (by simp)
    · simp only [Bool.or_eq_true, List.isEmpty_iff, decide_eq_true_eq, not_or, not_lt] at h1
      simp only [Bool.not_eq_true', Bool.not_eq_false, List.all_eq_true] at h2
      exact ⟨h1.1, h1.2, h2⟩

theorem hextetCheck_bounds {h : List Char} (hc : ipv6.hextetCheck h = true) :
    0 ≤ jsNumToInt (jsParseInt16 h) ∧ jsNumToInt (jsParseInt16 h) ≤ 65535 := by
  obtain ⟨hne, hlen, hall⟩ := hextetCheck_facts hc
  rw [jsParseInt16_hexDigits hne hall, jsNumToInt_intCast]
  have hlt := hexVal_lt hall
  have hle : (16 : ℕ) ^ h.length ≤ 16 ^ 4 := Nat.pow_le_pow_right (by omega) hlen
  constructor
  · positivity
  · exact_mod_cast by omega

end CidrBlock

namespace CidrBlock

theorem expandChecked_eq {s e : List Char} (h : ipv6.expandChecked s = some e) :
    ipv6.expandUnchecked s = e := by
  simp only [ipv6.expandChecked] at h
  simp only [ipv6.expandUnchecked]
  split_ifs at h ⊢ with h1 h2 h3
  all_goals first
  | exact Option.some.inj h
  | simp at h

theorem valid6_str_hextets {s : List Char} (hm : ipv4MappedMatch s = none)
    (h : ipv6.isValidAddress (.str s) = true) :
    ((if hasDC s then ipv6.expandUnchecked s else s).splitOn ':').length = 8
    ∧ ∀ g ∈ (if hasDC s then ipv6.expandUnchecked s else s).splitOn ':',
        ipv6.hextetCheck g = true := by
  simp only [ipv6.isValidAddress, hm] at h
  by_cases hcount : countDC s > 1
  · rw [if_pos hcount] at h
    exact absurd h (by simp)
  · rw [if_neg hcount] at h
    cases hdc : hasDC s with
    | false =>
      simp only [hdc, Bool.false_eq_true, if_false] at h ⊢
      simp only [Bool.and_eq_true, List.all_eq_true, decide_eq_true_eq] at h
      exact h
    | true =>
      simp only [hdc, if_true] at h ⊢
      cases he : ipv6.expandChecked s with
      | none =>
        rw [he] at h
        simp at h
      | some e =>
        rw [he] at h
        rw [expandChecked_eq he]
        simp only [Bool.and_eq_true, List.all_eq_true, decide_eq_true_eq] at h
        exact h

theorem ipv4MappedMatch_quad {s p : List Char} (hm : ipv4MappedMatch s = some p) :
    (dottedQuadGroups p).isSome = true := by
  unfold ipv4MappedMatch at hm
  split at hm
  · split_ifs at hm with hcond
    · obtain rfl := Option.some.inj hm
      simp only [Bool.and_eq_true] at hcond
      exact hcond.2
  · simp at hm

theorem dottedQuadGroups_facts {p : List Char} (h : (dottedQuadGroups p).isSome = true) :
    ∃ g0 g1 g2 g3, p.splitOn '.' = [g0, g1, g2, g3]
      ∧ ∀ g ∈ p.splitOn '.', g ≠ [] ∧ g.length ≤ 3 ∧ ∀ c ∈ g, isDigitChar c = true := by
  unfold dottedQuadGroups at h
  split at h
  case _ a b c d heq =>
    split_ifs at h with hall
    · refine ⟨a, b, c, d, heq, ?_⟩
      rw [heq]
      simp only [List.all_eq_true, Bool.and_eq_true, Bool.not_eq_eq_eq_not, Bool.not_true,
        List.isEmpty_eq_false, decide_eq_true_eq] at hall
      intro g hg
      obtain ⟨⟨hne, hlen⟩, hdig⟩ := hall g hg
      exact ⟨hne, hlen, hdig⟩
    · simp at h
  case _ => simp at h

end CidrBlock

namespace CidrBlock

/-! ## Invariant of produced `Ipv6Address` values (bounds on hextets) -/

theorem jsNumToInt_bound_of_checks {x : JsNum} {b : ℤ} (hb : 0 ≤ b)
    (hlo : x.lt (.fin 0) = false) (hhi : x.gt (.fin (b : ℚ)) = false) :
    0 ≤ jsNumToInt x ∧ jsNumToInt x ≤ b := by
  cases x with
  | nan => exact ⟨le_rfl, hb⟩
  | inf => exact absurd hhi (by simp [JsNum.gt, JsNum.lt])
  | negInf => exact absurd hlo (by simp [JsNum.lt])
  | fin q =>
    rw [jsNum_lt_fin] at hlo
    rw [JsNum.gt, jsNum_lt_fin] at hhi
    simp only [decide_eq_false_iff_not, not_lt] at hlo hhi
    simp only [jsNumToInt, ratTrunc, if_pos hlo]
    refine ⟨Int.floor_nonneg.mpr hlo, ?_⟩
    calc ⌊q⌋ ≤ ⌊((b : ℤ) : ℚ)⌋ := Int.floor_le_floor hhi
      _ = b := Int.floor_intCast b

theorem bigToHextetsGo_length : ∀ (k : ℕ) (z : ℤ),
    (ipv6.bigToHextetsGo z k).length = k := by
  intro k
  induction k with
  | zero => intro z; rfl
  | succ n ih => intro z; simp [ipv6.bigToHextetsGo, ih]

theorem bigToHextetsGo_bounds : ∀ (k : ℕ) (z : ℤ),
    ∀ h ∈ ipv6.bigToHextetsGo z k, 0 ≤ h ∧ h ≤ 65535 := by
  intro k
  induction k with
  | zero => intro z h hh; simp [ipv6.bigToHextetsGo] at hh
  | succ n ih =>
    intro z h hh
    simp only [ipv6.bigToHextetsGo, List.mem_cons] at hh
    rcases hh with rfl | hh
    · constructor
      · exact Int.emod_nonneg z (by norm_num)
      · have h2 : z.emod 65536 < 65536 := Int.emod_lt_of_pos z (by norm_num)
        omega
    · exact ih _ h hh

theorem int_lor_natCast (m n : ℤ) (hm : 0 ≤ m) (hn : 0 ≤ n) :
    Int.lor m n = ((m.toNat ||| n.toNat : ℕ) : ℤ) := by
  obtain ⟨a, rfl⟩ := Int.eq_ofNat_of_zero_le hm
  obtain ⟨b, rfl⟩ := Int.eq_ofNat_of_zero_le hn
  simp only [Int.toNat_natCast]
  rfl

theorem foldLor_bound : ∀ (hx : List ℤ) (r : ℤ) (k : ℕ), 0 ≤ r → r < 2 ^ k →
    (∀ h ∈ hx, 0 ≤ h ∧ h ≤ 65535) →
    0 ≤ hx.foldl (fun r h => Int.lor (r * 65536) h) r ∧
      hx.foldl (fun r h => Int.lor (r * 65536) h) r < 2 ^ (k + 16 * hx.length) := by
  intro hx
  induction hx with
  | nil =>
    intro r k h0 hk _
    simpa using ⟨h0, hk⟩
  | cons h t ih =>
    intro r k h0 hk hall
    obtain ⟨hh0, hh1⟩ := hall h (List.mem_cons_self h t)
    have hr0 : 0 ≤ r * 65536 := by positivity
    have hr1 : r * 65536 < 2 ^ (k + 16) := by
      calc r * 65536 < 2 ^ k * 65536 := by
            exact mul_lt_mul_of_pos_right hk (by norm_num)
        _ = 2 ^ (k + 16) := by rw [pow_add]; norm_num
    have hcastN : ((2 ^ (k + 16) : ℕ) : ℤ) = 2 ^ (k + 16) := by push_cast; ring
    have hmn : (r * 65536).toNat < 2 ^ (k + 16) :=
      (Int.toNat_lt hr0).mpr (by rw [hcastN]; exact hr1)
    have hnn : h.toNat < 2 ^ (k + 16) := by
      refine (Int.toNat_lt hh0).mpr ?_
      rw [hcastN]
      calc h ≤ 65535 := hh1
        _ < 2 ^ 16 := by norm_num
        _ ≤ 2 ^ (k + 16) := by
            exact pow_le_pow_right₀ (by norm_num) (by omega)
    have hor := Nat.or_lt_two_pow hmn hnn
    have hstep : Int.lor (r * 65536) h = (((r * 65536).toNat ||| h.toNat : ℕ) : ℤ) :=
      int_lor_natCast _ _ hr0 hh0
    have hs0 : 0 ≤ Int.lor (r * 65536) h := by
      rw [hstep]
      exact Int.natCast_nonneg _
    have hs1 : Int.lor (r * 65536) h < 2 ^ (k + 16) := by
      rw [hstep, ← hcastN]
      exact Nat.cast_lt.mpr hor
    have := ih (Int.lor (r * 65536) h) (k + 16) hs0 hs1
      (fun g hg => hall g (List.mem_cons_of_mem h hg))
    simp only [List.foldl_cons]
    refine ⟨this.1, ?_⟩
    have hexp : k + 16 + 16 * t.length = k + 16 * (h :: t).length := by
      simp [List.length_cons]; ring
    rw [← hexp]
    exact this.2

theorem toBigInt_bound {a : Ipv6Address} (h : Ipv6Inv a) :
    0 ≤ a.toBigInt ∧ a.toBigInt ≤ ipv6.MAX_SIZE := by
  obtain ⟨hlen, hall⟩ := h
  have hb := foldLor_bound a.hextets 0 0 le_rfl (by norm_num) hall
  rw [hlen] at hb
  unfold Ipv6Address.toBigInt ipv6.MAX_SIZE
  refine ⟨hb.1, ?_⟩
  have h2 := hb.2
  norm_num at h2 ⊢
  omega

end CidrBlock

namespace CidrBlock

theorem except_map_eq_ok {ε α β : Type} {e : Except ε α} {f : α → β} {b : β}
    (h : e.map f = .ok b) : ∃ a, e = .ok a ∧ f a = b := by
  cases e with
  | error e' => simp [Except.map] at h
  | ok a =>
    simp only [Except.map, Except.ok.injEq] at h
    exact ⟨a, rfl, h⟩

theorem exceptMapSome_ok {ε α : Type} {e : Except ε α} {b : α}
    (h : e.map some = .ok (some b)) : e = .ok b := by
  obtain ⟨a, ha, hab⟩ := except_map_eq_ok h
  obtain rfl := Option.some.inj hab
  exact ha

theorem except_bind_eq_ok {ε α β : Type} {e : Except ε α} {g : α → Except ε β} {b : β}
    (h : e >>= g = .ok b) : ∃ a, e = .ok a ∧ g a = .ok b := by
  cases e with
  | error e' => exact absurd h (by simp [Bind.bind, Except.bind])
  | ok a => exact ⟨a, rfl, by simpa [Bind.bind, Except.bind] using h⟩

theorem mapM_ok_mem {ε α β : Type} (f : α → Except ε β) :
    ∀ (l : List α) (bs : List β), l.mapM f = .ok bs → ∀ b ∈ bs, ∃ a ∈ l, f a = .ok b := by
  intro l
  induction l with
  | nil =>
    intro bs h b hb
    rw [← List.mapM'_eq_mapM] at h
    simp only [List.mapM'] at h
    simp only [pure, Except.pure, Except.ok.injEq] at h
    obtain rfl := h
    simp at hb
  | cons a l ih =>
    intro bs h b hb
    rw [← List.mapM'_eq_mapM] at h
    simp only [List.mapM'] at h
    obtain ⟨b0, hfa, h2⟩ := except_bind_eq_ok h
    obtain ⟨bs', hml, h3⟩ := except_bind_eq_ok h2
    simp only [pure, Except.pure, Except.ok.injEq] at h3
    obtain rfl := h3
    rw [List.mapM'_eq_mapM] at hml
    rcases List.mem_cons.mp hb with rfl | hb'
    · exact ⟨a, List.mem_cons_self a l, hfa⟩
    · obtain ⟨a', ha', hfa'⟩ := ih bs' hml b hb'
      exact ⟨a', List.mem_cons_of_mem a ha', hfa'⟩

theorem parseHextets_bounds {l : Ipv6AddrLit} {hx : List ℤ}
    (hv : ipv6.isValidAddress l = true) (hp : ipv6.parseHextets l = .ok hx) :
    hx.length = 8 ∧ ∀ h ∈ hx, 0 ≤ h ∧ h ≤ 65535 := by
  unfold ipv6.parseHextets at hp
  rw [hv] at hp
  rw [if_neg (by simp)] at hp
  cases l with
  | nullish => exact absurd hp (by simp)
  | big z =>
    obtain rfl := Except.ok.inj hp
    refine ⟨?_, ?_⟩
    · simp [ipv6.bigToHextets, bigToHextetsGo_length]
    · intro h hh
      rw [ipv6.bigToHextets, List.mem_reverse] at hh
      exact bigToHextetsGo_bounds 8 z h hh
  | arr xs =>
    obtain rfl := Except.ok.inj hp
    simp only [ipv6.isValidAddress, Bool.and_eq_true, List.all_eq_true,
      Bool.not_eq_true', decide_eq_true_eq] at hv
    obtain ⟨hlen, hall⟩ := hv
    have hcast : ((65535 : ℤ) : ℚ) = (65535 : ℚ) := by norm_num
    refine ⟨by simp [hlen], ?_⟩
    intro h hh
    simp only [List.map_map, List.mem_map] at hh
    obtain ⟨v, hvm, rfl⟩ := hh
    obtain ⟨hnum, ⟨hint, hlo⟩, hhi⟩ := hall v hvm
    have hhi' : (JsVal.toNum v).gt (.fin ((65535 : ℤ) : ℚ)) = false := by
      rw [hcast]; exact hhi
    exact jsNumToInt_bound_of_checks (by norm_num) hlo hhi'
  | str s =>
    cases hm : ipv4MappedMatch s with
    | some p =>
      simp only [hm] at hp
      obtain rfl := Except.ok.inj hp
      simp only [ipv6.isValidAddress, hm, Bool.and_eq_true, List.all_eq_true,
        Bool.not_eq_true', decide_eq_true_eq] at hv
      obtain ⟨hlen4, hall⟩ := hv
      obtain ⟨g0, g1, g2, g3, heq, -⟩ := dottedQuadGroups_facts (ipv4MappedMatch_quad hm)
      have hcast : ((255 : ℤ) : ℚ) = (255 : ℚ) := by norm_num
      have hb0 := hall (jsToNumber g0) (by rw [heq]; simp)
      have hb1 := hall (jsToNumber g1) (by rw [heq]; simp)
      have hb2 := hall (jsToNumber g2) (by rw [heq]; simp)
      have hb3 := hall (jsToNumber g3) (by rw [heq]; simp)
      have hb0' : (jsToNumber g0).gt (.fin ((255 : ℤ) : ℚ)) = false := by
        rw [hcast]; exact hb0.2
      have hb1' : (jsToNumber g1).gt (.fin ((255 : ℤ) : ℚ)) = false := by
        rw [hcast]; exact hb1.2
      have hb2' : (jsToNumber g2).gt (.fin ((255 : ℤ) : ℚ)) = false := by
        rw [hcast]; exact hb2.2
      have hb3' : (jsToNumber g3).gt (.fin ((255 : ℤ) : ℚ)) = false := by
        rw [hcast]; exact hb3.2
      have ha0 := jsNumToInt_bound_of_checks (by norm_num) hb0.1 hb0'
      have ha1 := jsNumToInt_bound_of_checks (by norm_num) hb1.1 hb1'
      have ha2 := jsNumToInt_bound_of_checks (by norm_num) hb2.1 hb2'
      have ha3 := jsNumToInt_bound_of_checks (by norm_num) hb3.1 hb3'
      rw [heq]
      simp only [List.map_cons, List.map_nil, List.getD_cons_zero, List.getD_cons_succ]
      rw [jsShl8_of_byte ha0.1 ha0.2, jsShl8_of_byte ha2.1 ha2.2]
      have hx00 : 0 ≤ jsNumToInt (jsToNumber g0) * 256 := by omega
      have hx01 : jsNumToInt (jsToNumber g0) * 256 < 65536 := by omega
      have hx20 : 0 ≤ jsNumToInt (jsToNumber g2) * 256 := by omega
      have hx21 : jsNumToInt (jsToNumber g2) * 256 < 65536 := by omega
      obtain ⟨h60, h61⟩ := jsOr_bound16 hx00 hx01 ha1.1 (by omega)
      obtain ⟨h70, h71⟩ := jsOr_bound16 hx20 hx21 ha3.1 (by omega)
      refine ⟨rfl, ?_⟩
      simp only [List.forall_mem_cons]
      refine ⟨⟨le_rfl, by norm_num⟩, ⟨le_rfl, by norm_num⟩, ⟨le_rfl, by norm_num⟩,
        ⟨le_rfl, by norm_num⟩, ⟨le_rfl, by norm_num⟩, ⟨by norm_num, le_rfl⟩,
        ⟨h60, by omega⟩, ⟨h70, by omega⟩, ?_⟩
      intro x hxm
      exact absurd hxm (List.not_mem_nil x)
    | none =>
      simp only [hm] at hp
      obtain rfl := Except.ok.inj hp
      obtain ⟨hlen8, hall⟩ := valid6_str_hextets hm hv
      refine ⟨by simp [hlen8], ?_⟩
      intro x hxm
      simp only [List.mem_map] at hxm
      obtain ⟨g, hg, rfl⟩ := hxm
      exact hextetCheck_bounds (hall g hg)

theorem mkIpv6Address_inv {l : Ipv6AddrLit} {a : Ipv6Address}
    (h : mkIpv6Address l = .ok a) : Ipv6Inv a := by
  unfold mkIpv6Address at h
  cases hv : ipv6.isValidAddress l with
  | false => rw [hv] at h; simp at h
  | true =>
    rw [hv] at h
    rw [if_neg (by simp)] at h
    obtain ⟨hx, hp, hmk⟩ := except_map_eq_ok h
    obtain rfl := hmk.symm
    exact parseHextets_bounds hv hp

theorem mkIpv6Cidr_addr_inv {l : Ipv6CidrLit} {c : Ipv6Cidr}
    (h : mkIpv6Cidr l = .ok c) : Ipv6Inv c.address := by
  unfold mkIpv6Cidr at h
  by_cases hv : (!ipv6.isValidCIDR l) = true
  · rw [if_pos hv] at h
    exact absurd h (by simp)
  · rw [if_neg hv] at h
    cases l with
    | nullish => exact absurd h (by simp)
    | str s =>
      obtain ⟨a, ha, hc⟩ := except_map_eq_ok h
      obtain rfl := hc.symm
      exact mkIpv6Address_inv ha
    | tup al r =>
      obtain ⟨a, ha, hc⟩ := except_map_eq_ok h
      obtain rfl := hc.symm
      exact mkIpv6Address_inv ha
    | obj al r =>
      obtain ⟨a, ha, hc⟩ := except_map_eq_ok h
      obtain rfl := hc.symm
      exact mkIpv6Address_inv ha

end CidrBlock

namespace CidrBlock

/-- C9: every `Ipv6Address` produced by any operation — construction
from a valid string/bigint/array literal, `nextAddress`, `previousAddress`,
or the CIDR class (its parsed base address, `netmask`, `nextCIDR`, and
`subnet` results) — stores exactly 8 hextets, each an integer in
[0, 0xffff]; consequently its canonical integer `toBigInt` lies in
[0, 2^128 - 1]. -/
theorem C9_produced_invariant :
    (∀ (l : Ipv6AddrLit) (a : Ipv6Address), mkIpv6Address l = .ok a → Ipv6Inv a)
    ∧ (∀ a : Ipv6Address, Ipv6Inv a → 0 ≤ a.toBigInt ∧ a.toBigInt ≤ ipv6.MAX_SIZE)
    ∧ (∀ (a b : Ipv6Address), a.nextAddress = .ok (some b) → Ipv6Inv b)
    ∧ (∀ (a b : Ipv6Address), a.previousAddress = .ok (some b) → Ipv6Inv b)
    ∧ (∀ (l : Ipv6CidrLit) (c : Ipv6Cidr), mkIpv6Cidr l = .ok c → Ipv6Inv c.address)
    ∧ (∀ (c : Ipv6Cidr) (a : Ipv6Address), c.netmask = .ok a → Ipv6Inv a)
    ∧ (∀ (c c' : Ipv6Cidr), c.nextCIDR = .ok (some c') → Ipv6Inv c'.address)
    ∧ (∀ (c : Ipv6Cidr) (r : ℤ) (cs : List Ipv6Cidr), c.subnet r = .ok cs →
        ∀ c' ∈ cs, Ipv6Inv c'.address) := by
  refine ⟨fun l a h => mkIpv6Address_inv h, fun a h => toBigInt_bound h,
    ?_, ?_, fun l c h => mkIpv6Cidr_addr_inv h, ?_, ?_, ?_⟩
  · intro a b h
    simp only [Ipv6Address.nextAddress] at h
    by_cases hc : a.toBigInt + 1 > ipv6.MAX_SIZE
    · rw [if_pos hc] at h
      exact absurd h (by simp)
    · rw [if_neg hc] at h
      exact mkIpv6Address_inv (exceptMapSome_ok h)
  · intro a b h
    simp only [Ipv6Address.previousAddress] at h
    by_cases hc : a.toBigInt - 1 < ipv6.MIN_SIZE
    · rw [if_pos hc] at h
      exact absurd h (by simp)
    · rw [if_neg hc] at h
      exact mkIpv6Address_inv (exceptMapSome_ok h)
  · intro c a h
    unfold Ipv6Cidr.netmask at h
    by_cases hc : c.range = 0
    · rw [if_pos hc] at h
      exact mkIpv6Address_inv h
    · rw [if_neg hc] at h
      exact mkIpv6Address_inv h
  · intro c c' h
    simp only [Ipv6Cidr.nextCIDR] at h
    by_cases hc : c.address.toBigInt + c.addressCount > ipv6.MAX_SIZE
    · rw [if_pos hc] at h
      exact absurd h (by simp)
    · rw [if_neg hc] at h
      exact mkIpv6Cidr_addr_inv (exceptMapSome_ok h)
  · intro c r cs h c' hc'
    simp only [Ipv6Cidr.subnet] at h
    by_cases hcond : r < c.range ∨ r > ipv6.MAX_RANGE
    · rw [if_pos hcond] at h
      exact absurd h (by simp)
    · rw [if_neg hcond] at h
      obtain ⟨i, hi, hfi⟩ := mapM_ok_mem _ _ _ h c' hc'
      exact mkIpv6Cidr_addr_inv hfi

theorem C9_witness :
    Ipv6Inv ⟨[0, 0, 0, 0, 0, 0, 0, 1]⟩
    ∧ (0 ≤ Ipv6Address.toBigInt ⟨[0, 0, 0, 0, 0, 0, 0, 1]⟩
        ∧ Ipv6Address.toBigInt ⟨[0, 0, 0, 0, 0, 0, 0, 1]⟩ ≤ ipv6.MAX_SIZE) :=
  ⟨C9_produced_invariant.1 (.big 1) ⟨[0, 0, 0, 0, 0, 0, 0, 1]⟩ (by decide),
   C9_produced_invariant.2.1 ⟨[0, 0, 0, 0, 0, 0, 0, 1]⟩
     (C9_produced_invariant.1 (.big 1) ⟨[0, 0, 0, 0, 0, 0, 0, 1]⟩ (by decide))⟩

end CidrBlock

namespace CidrBlock

theorem runStep_eq_runStepB (st : RunSt) (p : ℕ × ℤ) :
    runStep st p = runStepB st (p.1, decide (p.2 = 0)) := by
  unfold runStep runStepB
  by_cases h : p.2 = 0 <;> simp [h]

theorem scanZeroRuns_eq_B (hx : List ℤ) :
    scanZeroRuns hx = scanZeroRunsB (hx.map fun h => decide (h = 0)) := by
  unfold scanZeroRuns scanZeroRunsB
  rw [List.enum_map, List.foldl_map]
  have hfold : ∀ (l : List (ℕ × ℤ)) (st : RunSt),
      l.foldl runStep st
        = l.foldl (fun st p => runStepB st (Prod.map id (fun h => decide (h = 0)) p)) st := by
    intro l
    induction l with
    | nil => intro st; rfl
    | cons p t ih =>
      intro st
      simp only [List.foldl_cons, ih]
      rw [runStep_eq_runStepB]
      rfl
  rw [hfold]

theorem encodeScan_eq_best8 : ∀ (b0 b1 b2 b3 b4 b5 b6 b7 : Bool),
    encodeScan (scanZeroRunsB [b0, b1, b2, b3, b4, b5, b6, b7])
      = bestZeroRun [b0, b1, b2, b3, b4, b5, b6, b7] := by decide

theorem scanB8_fields : ∀ (b0 b1 b2 b3 b4 b5 b6 b7 : Bool),
    (scanZeroRunsB [b0, b1, b2, b3, b4, b5, b6, b7]).ls = -1
    ∨ (0 ≤ (scanZeroRunsB [b0, b1, b2, b3, b4, b5, b6, b7]).ls
        ∧ 0 ≤ (scanZeroRunsB [b0, b1, b2, b3, b4, b5, b6, b7]).ll) := by decide

end CidrBlock

namespace CidrBlock

theorem list_length8 {α : Type} (l : List α) (h : l.length = 8) :
    ∃ a0 a1 a2 a3 a4 a5 a6 a7, l = [a0, a1, a2, a3, a4, a5, a6, a7] := by
  cases l with
  | nil => simp at h
  | cons a0 t0 =>
  cases t0 with
  | nil => simp at h
  | cons a1 t1 =>
  cases t1 with
  | nil => simp at h
  | cons a2 t2 =>
  cases t2 with
  | nil => simp at h
  | cons a3 t3 =>
  cases t3 with
  | nil => simp at h
  | cons a4 t4 =>
  cases t4 with
  | nil => simp at h
  | cons a5 t5 =>
  cases t5 with
  | nil => simp at h
  | cons a6 t6 =>
  cases t6 with
  | nil => simp at h
  | cons a7 t7 =>
  cases t7 with
  | nil => exact ⟨a0, a1, a2, a3, a4, a5, a6, a7, rfl⟩
  | cons a8 t8 => simp at h

theorem toStr_eq_specCompress {a : Ipv6Address} (h8 : a.hextets.length = 8) :
    a.toStr = specCompress a.hextets := by
  obtain ⟨hx⟩ := a
  simp only at h8
  obtain ⟨b0, b1, b2, b3, b4, b5, b6, b7, hbse⟩ :=
    list_length8 (hx.map fun h => decide (h = 0)) (by simp [h8])
  have henc : encodeScan (scanZeroRunsB (hx.map fun h => decide (h = 0)))
      = bestZeroRun (hx.map fun h => decide (h = 0)) := by
    rw [hbse]; exact encodeScan_eq_best8 b0 b1 b2 b3 b4 b5 b6 b7
  have hfields := scanB8_fields b0 b1 b2 b3 b4 b5 b6 b7
  rw [← hbse] at hfields
  rw [← scanZeroRuns_eq_B] at henc hfields
  simp only [Ipv6Address.toStr, specCompress]
  rcases hfields with hls | ⟨hls, hll⟩
  · rw [if_pos hls]
    have hbest : bestZeroRun (hx.map fun h => decide (h = 0)) = none := by
      rw [← henc]; simp [encodeScan, hls]
    simp only [hbest]
  · have hlsne : (scanZeroRuns hx).ls ≠ -1 := by omega
    rw [if_neg hlsne]
    have hbest : bestZeroRun (hx.map fun h => decide (h = 0))
        = some ((scanZeroRuns hx).ls.toNat, (scanZeroRuns hx).ll.toNat) := by
      rw [← henc]; simp [encodeScan, hlsne]
    simp only [hbest]
    have hadd : ((scanZeroRuns hx).ls + (scanZeroRuns hx).ll).toNat
        = (scanZeroRuns hx).ls.toNat + (scanZeroRuns hx).ll.toNat := by omega
    rw [hadd]
    by_cases hbe : List.map hexRender (List.take (scanZeroRuns hx).ls.toNat hx) = []
    · by_cases hae : List.map hexRender
          (List.drop ((scanZeroRuns hx).ls.toNat + (scanZeroRuns hx).ll.toNat) hx) = []
      · rw [hbe, hae]
        rfl
      · have hA := List.isEmpty_eq_false.mpr hae
        rw [hbe]
        simp only [List.isEmpty_nil, hA, Bool.true_and, Bool.false_eq_true, if_false, if_true]
        rfl
    · by_cases hae : List.map hexRender
          (List.drop ((scanZeroRuns hx).ls.toNat + (scanZeroRuns hx).ll.toNat) hx) = []
      · have hB := List.isEmpty_eq_false.mpr hbe
        rw [hae]
        simp only [List.isEmpty_nil, hB, Bool.and_true, Bool.false_and,
          Bool.false_eq_true, if_false, if_true]
        rfl
      · have hB := List.isEmpty_eq_false.mpr hbe
        have hA := List.isEmpty_eq_false.mpr hae
        simp only [hB, hA, Bool.false_and, Bool.false_eq_true, if_false]

end CidrBlock

namespace CidrBlock

/-- C5: `Ipv6Address.toString` renders the canonical compressed
form described by the specification: it equals `specCompress`, which
replaces the longest (leftmost on ties) run of more than one
consecutive zero hextet by `::`, never compresses a run of length one,
renders the remaining hextets as lowercase hex without leading zeros
joined by `:`, and renders the all-zero address as `::`; in particular
the address parsed from "2001:0db8:0000:0000:0000:0000:0000:0001"
renders as "2001:db8::1". -/
theorem C5_toString_canonical_compression :
    (∀ a : Ipv6Address, a.hextets.length = 8 → a.toStr = specCompress a.hextets)
    ∧ mkIpv6Address (.str ("2001:0db8:0000:0000:0000:0000:0000:0001".toList))
        = .ok ⟨[0x2001, 0xdb8, 0, 0, 0, 0, 0, 1]⟩
    ∧ Ipv6Address.toStr ⟨[0x2001, 0xdb8, 0, 0, 0, 0, 0, 1]⟩ = "2001:db8::1".toList
    ∧ Ipv6Address.toStr ⟨[0, 0, 0, 0, 0, 0, 0, 0]⟩ = [':', ':'] :=
  ⟨fun a h => toStr_eq_specCompress h, by decide, by decide, by decide⟩

/-- C5 witness: the compression theorem applied to the stored hextets of
2001:db8::1. -/
theorem C5_witness :
    Ipv6Address.toStr ⟨[0x2001, 0xdb8, 0, 0, 0, 0, 0, 1]⟩
      = specCompress [0x2001, 0xdb8, 0, 0, 0, 0, 0, 1] :=
  C5_toString_canonical_compression.1 ⟨[0x2001, 0xdb8, 0, 0, 0, 0, 0, 1]⟩ (by decide)

end CidrBlock

namespace CidrBlock

theorem jsSplitDC_cons2 (a b : Char) (t : List Char) (hab : ¬(a = ':' ∧ b = ':')) :
    jsSplitDC (a :: b :: t) = match jsSplitDC (b :: t) with
      | [] => [[a]]
      | h :: ts => (a :: h) :: ts := by
  by_cases ha : a = ':'
  · subst ha
    have hb : ¬(b = ':') := fun hb => hab ⟨rfl, hb⟩
    simp [jsSplitDC, hb]
  · simp [jsSplitDC, ha]

theorem countDC_cons2 (a b : Char) (t : List Char) (hab : ¬(a = ':' ∧ b = ':')) :
    countDC (a :: b :: t) = countDC (b :: t) := by
  by_cases ha : a = ':'
  · subst ha
    have hb : ¬(b = ':') := fun hb => hab ⟨rfl, hb⟩
    simp [countDC, hb]
  · simp [countDC, ha]

theorem jsSplitDC_ne_nil : ∀ s : List Char, jsSplitDC s ≠ [] := by
  intro s
  induction s using jsSplitDC.induct with
  | case1 => simp [jsSplitDC]
  | case2 c => simp [jsSplitDC]
  | case3 rest ih => simp [jsSplitDC]
  | case4 c rest hne hnotDC hrec ih =>
    cases rest with
    | nil => exact absurd rfl hne
    | cons b t =>
      have hab : ¬(c = ':' ∧ b = ':') := fun hp => hnotDC t hp.1 (by rw [hp.2])
      rw [jsSplitDC_cons2 c b t hab, hrec]
      simp
  | case5 c rest hne hnotDC hd tl hrec ih =>
    cases rest with
    | nil => exact absurd rfl hne
    | cons b t =>
      have hab : ¬(c = ':' ∧ b = ':') := fun hp => hnotDC t hp.1 (by rw [hp.2])
      rw [jsSplitDC_cons2 c b t hab, hrec]
      simp

theorem jsSplitDC_chars : ∀ (s : List Char) (c : Char), c ∈ s →
    c = ':' ∨ ∃ p ∈ jsSplitDC s, c ∈ p := by
  intro s
  induction s using jsSplitDC.induct with
  | case1 => intro c hc; simp at hc
  | case2 a =>
    intro c hc
    simp only [List.mem_singleton] at hc
    subst hc
    exact Or.inr ⟨[c], by simp [jsSplitDC]⟩
  | case3 rest ih =>
    intro c hc
    rcases List.mem_cons.mp hc with rfl | hc2
    · exact Or.inl rfl
    rcases List.mem_cons.mp hc2 with rfl | hc3
    · exact Or.inl rfl
    rcases ih c hc3 with h | ⟨p, hp, hcp⟩
    · exact Or.inl h
    · exact Or.inr ⟨p, by simp [jsSplitDC]; exact Or.inr hp, hcp⟩
  | case4 a rest hne hnotDC hrec ih =>
    exact absurd hrec (jsSplitDC_ne_nil rest)
  | case5 a rest hne hnotDC hd tl hrec ih =>
    intro c hc
    cases rest with
    | nil => exact absurd rfl hne
    | cons b t =>
      have hab : ¬(a = ':' ∧ b = ':') := fun hp => hnotDC t hp.1 (by rw [hp.2])
      rw [jsSplitDC_cons2 a b t hab, hrec]
      rcases List.mem_cons.mp hc with rfl | hcr
      · exact Or.inr ⟨c :: hd, List.mem_cons_self _ _, List.mem_cons_self _ _⟩
      · rcases ih c hcr with h | ⟨p, hp, hcp⟩
        · exact Or.inl h
        · rw [hrec] at hp
          rcases List.mem_cons.mp hp with rfl | hpt
          · exact Or.inr ⟨a :: p, List.mem_cons_self _ _, List.mem_cons_of_mem a hcp⟩
          · exact Or.inr ⟨p, List.mem_cons_of_mem _ hpt, hcp⟩

theorem jsSplitDC_length : ∀ s : List Char, (jsSplitDC s).length = countDC s + 1 := by
  intro s
  induction s using jsSplitDC.induct with
  | case1 => simp [jsSplitDC, countDC]
  | case2 c => simp [jsSplitDC, countDC]
  | case3 rest ih => simp [jsSplitDC, countDC, ih]
  | case4 a rest hne hnotDC hrec ih =>
    exact absurd hrec (jsSplitDC_ne_nil rest)
  | case5 a rest hne hnotDC hd tl hrec ih =>
    cases rest with
    | nil => exact absurd rfl hne
    | cons b t =>
      have hab : ¬(a = ':' ∧ b = ':') := fun hp => hnotDC t hp.1 (by rw [hp.2])
      rw [jsSplitDC_cons2 a b t hab, hrec, countDC_cons2 a b t hab]
      rw [hrec] at ih
      simp at ih ⊢
      omega

end CidrBlock

namespace CidrBlock

theorem mem_of_intersperse {α : Type} (sep : α) :
    ∀ (L : List α) (x : α), x ∈ L.intersperse sep → x = sep ∨ x ∈ L := by
  intro L
  induction L with
  | nil => intro x hx; simp [List.intersperse] at hx
  | cons a t ih =>
    intro x hx
    cases t with
    | nil =>
      simp only [List.intersperse, List.mem_singleton] at hx
      exact Or.inr (by simp [hx])
    | cons b t2 =>
      simp only [List.intersperse] at hx
      rcases List.mem_cons.mp hx with rfl | hx2
      · exact Or.inr (List.mem_cons_self _ _)
      rcases List.mem_cons.mp hx2 with rfl | hx3
      · exact Or.inl rfl
      rcases ih x hx3 with h | h
      · exact Or.inl h
      · exact Or.inr (List.mem_cons_of_mem a h)

theorem intersperse_mem_of_mem {α : Type} (sep : α) :
    ∀ (L : List α) (x : α), x ∈ L → x ∈ L.intersperse sep := by
  intro L
  induction L with
  | nil => intro x hx; simp at hx
  | cons a t ih =>
    intro x hx
    cases t with
    | nil => simpa [List.intersperse] using hx
    | cons b t2 =>
      simp only [List.intersperse]
      rcases List.mem_cons.mp hx with rfl | hx2
      · exact List.mem_cons_self _ _
      · exact List.mem_cons_of_mem _ (List.mem_cons_of_mem _ (ih x hx2))

theorem intercalate_eq_flatten (sep : Char) (L : List (List Char)) :
    List.intercalate [sep] L = (L.intersperse [sep]).flatten := by
  simp [List.intercalate]

theorem mem_intercalate_decomp {c sep : Char} {L : List (List Char)}
    (h : c ∈ List.intercalate [sep] L) : c = sep ∨ ∃ g ∈ L, c ∈ g := by
  rw [intercalate_eq_flatten] at h
  obtain ⟨m, hm, hcm⟩ := List.mem_flatten.mp h
  rcases mem_of_intersperse [sep] L m hm with rfl | hmL
  · simp only [List.mem_singleton] at hcm
    exact Or.inl hcm
  · exact Or.inr ⟨m, hmL, hcm⟩

theorem mem_intercalate_of_mem {c sep : Char} {L : List (List Char)} {g : List Char}
    (hg : g ∈ L) (hc : c ∈ g) : c ∈ List.intercalate [sep] L := by
  rw [intercalate_eq_flatten]
  exact List.mem_flatten.mpr ⟨g, intersperse_mem_of_mem [sep] L g hg, hc⟩

theorem mem_splitOn_decomp {c : Char} (sep : Char) {l : List Char} (h : c ∈ l) :
    c = sep ∨ ∃ g ∈ l.splitOn sep, c ∈ g := by
  rw [← List.intercalate_splitOn l sep] at h
  exact mem_intercalate_decomp h

end CidrBlock

namespace CidrBlock

theorem hextetCheck_dot {g : List Char} (h : '.' ∈ g) : ipv6.hextetCheck g = false := by
  cases hc : ipv6.hextetCheck g
  · rfl
  · exact absurd ((hextetCheck_facts hc).2.2 '.' h) (by decide)

theorem dot_mem_expandUnchecked {s : List Char} (hc1 : countDC s ≤ 1) (hdot : '.' ∈ s) :
    '.' ∈ ipv6.expandUnchecked s := by
  obtain ⟨p, hp, hdp⟩ := (jsSplitDC_chars s '.' hdot).resolve_left (by decide)
  have hlen := jsSplitDC_length s
  simp only [ipv6.expandUnchecked]
  have hpe : p ≠ [] := List.ne_nil_of_mem hdp
  cases hps : jsSplitDC s with
  | nil => exact absurd hps (jsSplitDC_ne_nil s)
  | cons p0 ps =>
    cases ps with
    | nil =>
      rw [hps] at hp
      simp only [List.mem_singleton] at hp
      subst hp
      simp only [List.getD_cons_zero, List.getD_cons_succ, List.getD_nil]
      have h0 : p.isEmpty = false := List.isEmpty_eq_false.mpr hpe
      simp only [h0, Bool.not_false, if_true, List.isEmpty_nil, Bool.not_true,
        Bool.false_eq_true, if_false]
      obtain ⟨g, hg, hdg⟩ := (mem_splitOn_decomp ':' hdp).resolve_left (by decide)
      exact mem_intercalate_of_mem
        (List.mem_append_left _ (List.mem_append_left _ hg)) hdg
    | cons p1 ps2 =>
      rw [hps] at hlen
      have hps2 : ps2 = [] := by
        simp only [List.length_cons] at hlen
        cases ps2 with
        | nil => rfl
        | cons q qs => simp at hlen; omega
      subst hps2
      rw [hps] at hp
      simp only [List.getD_cons_zero, List.getD_cons_succ]
      rcases List.mem_cons.mp hp with heq | hp2
      · subst heq
        have h0 : p.isEmpty = false := List.isEmpty_eq_false.mpr hpe
        simp only [h0, Bool.not_false, if_true]
        obtain ⟨g, hg, hdg⟩ := (mem_splitOn_decomp ':' hdp).resolve_left (by decide)
        exact mem_intercalate_of_mem
          (List.mem_append_left _ (List.mem_append_left _ hg)) hdg
      · have heq2 : p = p1 := by simpa using hp2
        subst heq2
        have h1 : p.isEmpty = false := List.isEmpty_eq_false.mpr hpe
        simp only [h1, Bool.not_false, if_true]
        obtain ⟨g, hg, hdg⟩ := (mem_splitOn_decomp ':' hdp).resolve_left (by decide)
        exact mem_intercalate_of_mem (List.mem_append_right _ hg) hdg

end CidrBlock

namespace CidrBlock

theorem valid6_dot_not_mapped_false {s : List Char} (hm : ipv4MappedMatch s = none)
    (hdot : '.' ∈ s) : ipv6.isValidAddress (.str s) = false := by
  simp only [ipv6.isValidAddress, hm]
  by_cases hcount : countDC s > 1
  · rw [if_pos hcount]
  · rw [if_neg hcount]
    have hc1 : countDC s ≤ 1 := by omega
    cases hdc : hasDC s with
    | false =>
      simp only [hdc, Bool.false_eq_true, if_false]
      obtain ⟨g, hg, hdg⟩ := (mem_splitOn_decomp ':' hdot).resolve_left (by decide)
      have hall : (s.splitOn ':').all ipv6.hextetCheck = false :=
        List.all_eq_false.mpr ⟨g, hg, by simp [hextetCheck_dot hdg]⟩
      simp [hall]
    | true =>
      simp only [hdc, if_true]
      cases he : ipv6.expandChecked s with
      | none => simp
      | some e =>
        have hdm : '.' ∈ e := expandChecked_eq he ▸ dot_mem_expandUnchecked hc1 hdot
        obtain ⟨g, hg, hdg⟩ := (mem_splitOn_decomp ':' hdm).resolve_left (by decide)
        have hall : (e.splitOn ':').all ipv6.hextetCheck = false :=
          List.all_eq_false.mpr ⟨g, hg, by simp [hextetCheck_dot hdg]⟩
        simp [hall]

theorem ipv4MappedMatch_shape {s p : List Char} (hm : ipv4MappedMatch s = some p) :
    ∃ f1 f2 f3 f4, s = ':' :: ':' :: f1 :: f2 :: f3 :: f4 :: ':' :: p
      ∧ isFChar f1 = true ∧ isFChar f2 = true ∧ isFChar f3 = true ∧ isFChar f4 = true
      ∧ (dottedQuadGroups p).isSome = true := by
  unfold ipv4MappedMatch at hm
  split at hm
  · split_ifs at hm with hcond
    obtain rfl := Option.some.inj hm
    simp only [Bool.and_eq_true] at hcond
    exact ⟨_, _, _, _, rfl, hcond.1.1.1.1, hcond.1.1.1.2, hcond.1.1.2, hcond.1.2, hcond.2⟩
  · simp at hm

end CidrBlock

namespace CidrBlock

/-- C10: the IPv6 validator/parser accepts an embedded dotted-decimal
IPv4 suffix only in the exact form `::ffff:a.b.c.d` (the `ffff` letters
case-insensitive): a successful regex match forces that exact shape, and
any string containing a `.` that does not match the regex is rejected by
`ipv6.isValidAddress` — in particular "0:0:0:0:0:ffff:1.2.3.4" and
"::1.2.3.4" are rejected although they denote in-range values, while
"::ffff:1.2.3.4" is accepted and parses to
::ffff:1.2.3.4 = [0,0,0,0,0,0xffff,0x102,0x304]. -/
theorem C10_mapped_suffix_exact_form :
    (∀ s p : List Char, ipv4MappedMatch s = some p →
        ∃ f1 f2 f3 f4, s = ':' :: ':' :: f1 :: f2 :: f3 :: f4 :: ':' :: p
          ∧ isFChar f1 = true ∧ isFChar f2 = true ∧ isFChar f3 = true ∧ isFChar f4 = true
          ∧ (dottedQuadGroups p).isSome = true)
    ∧ (∀ s : List Char, ipv4MappedMatch s = none → '.' ∈ s →
        ipv6.isValidAddress (.str s) = false)
    ∧ ipv6.isValidAddress (.str ("::ffff:1.2.3.4".toList)) = true
    ∧ ipv6.isValidAddress (.str ("::FfFf:192.168.1.1".toList)) = true
    ∧ ipv6.parseHextets (.str ("::ffff:1.2.3.4".toList))
        = .ok [0, 0, 0, 0, 0, 0xffff, 0x102, 0x304]
    ∧ ipv6.isValidAddress (.str ("0:0:0:0:0:ffff:1.2.3.4".toList)) = false
    ∧ ipv6.isValidAddress (.str ("::1.2.3.4".toList)) = false :=
  ⟨fun s p hm => ipv4MappedMatch_shape hm,
   fun s hm hdot => valid6_dot_not_mapped_false hm hdot,
   by decide, by decide, by decide, by decide, by decide⟩

/-- C10 witness: the rejection half applied to "0:0:0:0:0:ffff:1.2.3.4"
and the shape half applied to "::ffff:1.2.3.4". -/
theorem C10_witness :
    ipv6.isValidAddress (.str ("0:0:0:0:0:ffff:1.2.3.4".toList)) = false
    ∧ ∃ f1 f2 f3 f4, ("::ffff:1.2.3.4".toList)
        = ':' :: ':' :: f1 :: f2 :: f3 :: f4 :: ':' :: ("1.2.3.4".toList)
      ∧ isFChar f1 = true ∧ isFChar f2 = true ∧ isFChar f3 = true ∧ isFChar f4 = true
      ∧ (dottedQuadGroups ("1.2.3.4".toList)).isSome = true :=
  ⟨C10_mapped_suffix_exact_form.2.1 ("0:0:0:0:0:ffff:1.2.3.4".toList) (by decide) (by decide),
   C10_mapped_suffix_exact_form.1 ("::ffff:1.2.3.4".toList) ("1.2.3.4".toList) (by decide)⟩

end CidrBlock

namespace CidrBlock

theorem countDC_cons_of (c : Char) (rest : List Char)
    (hg : ∀ r, c = ':' → rest = ':' :: r → False) : countDC (c :: rest) = countDC rest := by
  by_cases hc : c = ':'
  · subst hc
    cases rest with
    | nil => simp [countDC]
    | cons b t =>
      have hb : ¬(b = ':') := fun hb => hg t rfl (by rw [hb])
      simp [countDC, hb]
  · cases rest with
    | nil => simp [countDC, hc]
    | cons b t => simp [countDC, hc]

theorem hasDC_cons_of (c : Char) (rest : List Char)
    (hg : ∀ r, c = ':' → rest = ':' :: r → False) : hasDC (c :: rest) = hasDC rest := by
  by_cases hc : c = ':'
  · subst hc
    cases rest with
    | nil => simp [hasDC]
    | cons b t =>
      have hb : ¬(b = ':') := fun hb => hg t rfl (by rw [hb])
      simp [hasDC, hb]
  · cases rest with
    | nil => simp [hasDC, hc]
    | cons b t => simp [hasDC, hc]

theorem hasDC_false_iff_countDC : ∀ s : List Char, hasDC s = false ↔ countDC s = 0 := by
  intro s
  induction s using countDC.induct with
  | case1 rest ih => simp [hasDC, countDC]
  | case2 c rest hg ih => rw [hasDC_cons_of c rest hg, countDC_cons_of c rest hg]; exact ih
  | case3 => simp [hasDC, countDC]

theorem jsSplitDC_of_noDCP : ∀ s : List Char, NoDCP s → jsSplitDC s = [s] := by
  intro s
  induction s using jsSplitDC.induct with
  | case1 => intro _; rfl
  | case2 c => intro _; simp [jsSplitDC]
  | case3 rest ih =>
    intro h
    have := (List.chain'_cons'.mp h).1 ':' (by simp)
    tauto
  | case4 c rest hne hnotDC hrec ih =>
    exact absurd hrec (jsSplitDC_ne_nil rest)
  | case5 c rest hne hnotDC hd tl hrec ih =>
    intro h
    cases rest with
    | nil => exact absurd rfl hne
    | cons b t =>
      have hab : ¬(c = ':' ∧ b = ':') := fun hp => hnotDC t hp.1 (by rw [hp.2])
      rw [jsSplitDC_cons2 c b t hab, ih (List.chain'_cons'.mp h).2]

theorem jsSplitDC_append (B A : List Char) (hB : NoDCP (B ++ [':'])) :
    jsSplitDC (B ++ ':' :: ':' :: A) = B :: jsSplitDC A := by
  induction B with
  | nil => rfl
  | cons c B' ih =>
    have hB' := (List.chain'_cons'.mp hB).2
    have hrec := ih hB'
    cases B' with
    | nil =>
      have hc : ¬(c = ':') := by
        have := (List.chain'_cons'.mp hB).1 ':' (by simp)
        tauto
      simp only [List.nil_append, List.cons_append]
      rw [jsSplitDC_cons2 c ':' (':' :: A) (by tauto)]
      rw [show jsSplitDC (':' :: ':' :: A) = [] :: jsSplitDC A from by simp [jsSplitDC]]
    | cons d B'' =>
      have hcd : ¬(c = ':' ∧ d = ':') := by
        have := (List.chain'_cons'.mp hB).1 d (by simp)
        tauto
      simp only [List.cons_append]
      rw [jsSplitDC_cons2 c d (B'' ++ ':' :: ':' :: A) hcd]
      simp only [List.cons_append] at hrec
      rw [hrec]

end CidrBlock

namespace CidrBlock

theorem hexDigit_ne_colon {c : Char} (h : isHexDigitChar c = true) : c ≠ ':' := by
  intro he
  subst he
  exact absurd h (by decide)

theorem hexDigit_ne_dot {c : Char} (h : isHexDigitChar c = true) : c ≠ '.' := by
  intro he
  subst he
  exact absurd h (by decide)

theorem digit_ne_dot {c : Char} (h : isDigitChar c = true) : c ≠ '.' := by
  intro he
  subst he
  exact absurd h (by decide)

theorem hexRender_ne_nil (h : ℤ) : hexRender h ≠ [] := natToHexStr_ne_nil _

theorem hexRender_hexDigits (h : ℤ) : ∀ c ∈ hexRender h, isHexDigitChar c = true :=
  mem_natToHexStr_hexDigit

theorem hexRender_zero : hexRender 0 = ['0'] := by decide

theorem hexRender_len_le4 {h : ℤ} (h1 : h ≤ 65535) : (hexRender h).length ≤ 4 := by
  refine natToHexStr_length_le 3 h.toNat ?_
  have : h.toNat ≤ 65535 := by omega
  omega

theorem jsParseInt16_hexRender {h : ℤ} (h0 : 0 ≤ h) :
    jsParseInt16 (hexRender h) = .fin ((h : ℤ) : ℚ) := by
  rw [jsParseInt16_hexDigits (hexRender_ne_nil h) (hexRender_hexDigits h)]
  rw [hexRender, hexVal_natToHexStr]
  rw [Int.toNat_of_nonneg h0]

theorem parse_hexRender {h : ℤ} (h0 : 0 ≤ h) :
    jsNumToInt (jsParseInt16 (hexRender h)) = h := by
  rw [jsParseInt16_hexRender h0, jsNumToInt_intCast]

theorem hextetCheck_hexRender {h : ℤ} (h0 : 0 ≤ h) (h1 : h ≤ 65535) :
    ipv6.hextetCheck (hexRender h) = true := by
  unfold ipv6.hextetCheck
  rw [if_neg ?c1, if_neg ?c2]
  case c1 =>
    simp only [Bool.or_eq_true, List.isEmpty_iff, decide_eq_true_eq, not_or, not_lt]
    exact ⟨hexRender_ne_nil h, hexRender_len_le4 h1⟩
  case c2 =>
    simp only [Bool.not_eq_true', Bool.not_eq_false, List.all_eq_true]
    exact hexRender_hexDigits h
  rw [jsParseInt16_hexRender h0]
  simp only [jsNum_lt_fin, jsNum_gt_fin, Bool.and_eq_true, Bool.not_eq_true',
    decide_eq_false_iff_not, not_lt]
  constructor
  · exact_mod_cast h0
  · exact_mod_cast h1

end CidrBlock

namespace CidrBlock

theorem chain_of_left {R : Char → Char → Prop} :
    ∀ g : List Char, (∀ x ∈ g, ∀ y, R x y) → List.Chain' R g := by
  intro g
  induction g with
  | nil => intro _; exact List.chain'_nil
  | cons a t ih =>
    intro h
    refine List.chain'_cons'.mpr ⟨fun y _ => h a (List.mem_cons_self _ _) y, ?_⟩
    exact ih fun x hx y => h x (List.mem_cons_of_mem a hx) y

theorem noDCP_left {g t : List Char} (hg : ∀ c ∈ g, c ≠ ':') (ht : NoDCP t) :
    NoDCP (g ++ t) := by
  rw [NoDCP, List.chain'_append]
  refine ⟨chain_of_left g fun x hx y => fun hp => hg x hx hp.1, ht, ?_⟩
  intro x hx y hy hp
  exact hg x (List.mem_of_mem_getLast? hx) hp.1

theorem intercalate_cons2 (sep : Char) (g h : List Char) (t : List (List Char)) :
    List.intercalate [sep] (g :: h :: t) = g ++ sep :: List.intercalate [sep] (h :: t) := by
  simp [List.intercalate, List.intersperse]

theorem intercalate_head {g : List Char} (gs : List (List Char)) {c : Char} {g' : List Char}
    (hg : g = c :: g') :
    ∃ r, List.intercalate [':'] (g :: gs) = c :: r := by
  cases gs with
  | nil => exact ⟨g', by simp [List.intercalate, List.intersperse, hg]⟩
  | cons h t =>
    rw [intercalate_cons2, hg]
    exact ⟨g' ++ ':' :: List.intercalate [':'] (h :: t), by simp⟩

theorem noDCP_intercalate_aux :
    ∀ gs : List (List Char), (∀ g ∈ gs, g ≠ [] ∧ ∀ c ∈ g, c ≠ ':') →
      NoDCP (List.intercalate [':'] gs ++ [':']) := by
  intro gs
  induction gs with
  | nil =>
    intro _
    exact List.chain'_singleton _
  | cons g rest ih =>
    intro h
    obtain ⟨hgne, hgcf⟩ := h g (List.mem_cons_self _ _)
    cases rest with
    | nil =>
      have hsing : List.intercalate [':'] [g] = g := by
        simp [List.intercalate, List.intersperse]
      rw [hsing]
      exact noDCP_left hgcf (List.chain'_singleton _)
    | cons g2 t =>
      rw [intercalate_cons2]
      have hrest := ih fun g' hg' => h g' (List.mem_cons_of_mem _ hg')
      obtain ⟨g2ne, g2cf⟩ := h g2 (List.mem_cons_of_mem _ (List.mem_cons_self _ _))
      obtain ⟨c2, g2', hg2⟩ : ∃ c2 g2', g2 = c2 :: g2' := by
        cases g2 with
        | nil => exact absurd rfl g2ne
        | cons a b => exact ⟨a, b, rfl⟩
      obtain ⟨r, hr⟩ := intercalate_head t hg2
      rw [List.append_assoc, List.cons_append]
      refine noDCP_left hgcf ?_
      refine List.chain'_cons'.mpr ⟨?_, hrest⟩
      intro y hy
      rw [hr] at hy
      simp only [List.cons_append, List.head?_cons, Option.mem_def, Option.some.injEq] at hy
      subst hy
      have hc2 : c2 ≠ ':' := g2cf c2 (by rw [hg2]; exact List.mem_cons_self _ _)
      tauto

theorem noDCP_intercalate {gs : List (List Char)}
    (h : ∀ g ∈ gs, g ≠ [] ∧ ∀ c ∈ g, c ≠ ':') :
    NoDCP (List.intercalate [':'] gs) :=
  (List.chain'_append.mp (noDCP_intercalate_aux gs h)).1

end CidrBlock

namespace CidrBlock

theorem ipv4MappedMatch_dot {s p : List Char} (hm : ipv4MappedMatch s = some p) : '.' ∈ s := by
  obtain ⟨f1, f2, f3, f4, rfl, -, -, -, -, hq⟩ := ipv4MappedMatch_shape hm
  obtain ⟨a, b, c, d, heq, -⟩ := dottedQuadGroups_facts hq
  have hp : p = List.intercalate ['.'] [a, b, c, d] := by
    rw [← heq, List.intercalate_splitOn]
  rw [hp, intercalate_cons2]
  simp

theorem ipv4MappedMatch_none_of_no_dot {s : List Char} (hnd : '.' ∉ s) :
    ipv4MappedMatch s = none := by
  cases hm : ipv4MappedMatch s with
  | none => rfl
  | some p => exact absurd (ipv4MappedMatch_dot hm) hnd

theorem no_dot_intercalate_hexRender (gs : List ℤ) :
    '.' ∉ List.intercalate [':'] (gs.map hexRender) := by
  intro hd
  rcases mem_intercalate_decomp hd with h | ⟨g, hg, hdg⟩
  · exact absurd h (by decide)
  · obtain ⟨v, hv, rfl⟩ := List.mem_map.mp hg
    exact hexDigit_ne_dot (hexRender_hexDigits v '.' hdg) rfl

theorem hexRender_groups_props (gs : List ℤ) :
    ∀ g ∈ gs.map hexRender, g ≠ [] ∧ ∀ c ∈ g, c ≠ ':' := by
  intro g hg
  obtain ⟨v, hv, rfl⟩ := List.mem_map.mp hg
  exact ⟨hexRender_ne_nil v, fun c hc => hexDigit_ne_colon (hexRender_hexDigits v c hc)⟩

theorem splitOn_intercalate_hexRender (gs : List ℤ) (hne : gs ≠ []) :
    (List.intercalate [':'] (gs.map hexRender)).splitOn ':' = gs.map hexRender := by
  refine List.splitOn_intercalate (gs.map hexRender) ':' ?_ ?_
  · intro g hg hc
    exact (hexRender_groups_props gs g hg).2 ':' hc rfl
  · simp [hne]

theorem map_parse_hexRender {gs : List ℤ} (hb : ∀ h ∈ gs, 0 ≤ h ∧ h ≤ 65535) :
    (gs.map hexRender).map (fun g => jsNumToInt (jsParseInt16 g)) = gs := by
  rw [List.map_map]
  have h2 : ∀ h ∈ gs, ((fun g => jsNumToInt (jsParseInt16 g)) ∘ hexRender) h = id h := by
    intro h hh
    simp only [Function.comp_apply, id_eq]
    exact parse_hexRender (hb h hh).1
  rw [List.map_congr_left h2, List.map_id]

theorem all_hextetCheck_hexRender {gs : List ℤ} (hb : ∀ h ∈ gs, 0 ≤ h ∧ h ≤ 65535) :
    (gs.map hexRender).all ipv6.hextetCheck = true := by
  rw [List.all_eq_true]
  intro g hg
  obtain ⟨v, hv, rfl⟩ := List.mem_map.mp hg
  exact hextetCheck_hexRender (hb v hv).1 (hb v hv).2

end CidrBlock

namespace CidrBlock

theorem best8_props : ∀ (b0 b1 b2 b3 b4 b5 b6 b7 : Bool),
    (bestZeroRun [b0, b1, b2, b3, b4, b5, b6, b7]).all (fun p =>
      decide (2 ≤ p.2) && decide (p.1 + p.2 ≤ 8)
      && decide (([b0, b1, b2, b3, b4, b5, b6, b7].drop p.1).take p.2
          = List.replicate p.2 true)) = true := by decide

theorem best8_facts {hx : List ℤ} (h8 : hx.length = 8) {s l : ℕ}
    (hb : bestZeroRun (hx.map fun h => decide (h = 0)) = some (s, l)) :
    2 ≤ l ∧ s + l ≤ 8 ∧ (hx.drop s).take l = List.replicate l (0 : ℤ) := by
  obtain ⟨b0, b1, b2, b3, b4, b5, b6, b7, hbse⟩ :=
    list_length8 (hx.map fun h => decide (h = 0)) (by simp [h8])
  have hp := best8_props b0 b1 b2 b3 b4 b5 b6 b7
  rw [← hbse, hb] at hp
  simp only [Option.all_some, Bool.and_eq_true, decide_eq_true_eq] at hp
  obtain ⟨⟨hl2, hsl⟩, hwin0⟩ := hp
  have hwin : ((hx.drop s).take l).map (fun h => decide (h = 0)) = List.replicate l true := by
    rw [List.map_take, List.map_drop]
    exact hwin0
  refine ⟨hl2, hsl, ?_⟩
  have hlenw : ((hx.drop s).take l).length = l := by
    have := congrArg List.length hwin
    simpa using this
  rw [List.eq_replicate_iff]
  refine ⟨hlenw, ?_⟩
  intro b hbw
  have : decide (b = 0) = true := by
    have hmem : decide (b = 0) ∈ ((hx.drop s).take l).map fun h => decide (h = 0) :=
      List.mem_map_of_mem _ hbw
    rw [hwin] at hmem
    exact List.eq_of_mem_replicate hmem
  simpa using this

end CidrBlock

namespace CidrBlock

theorem leftParts_eq (gs : List ℤ) :
    (if !(List.intercalate [':'] (gs.map hexRender)).isEmpty
     then (List.intercalate [':'] (gs.map hexRender)).splitOn ':' else [])
    = gs.map hexRender := by
  cases gs with
  | nil => simp [List.intercalate, List.intersperse]
  | cons v t =>
    obtain ⟨c, g', hg⟩ : ∃ c g', hexRender v = c :: g' := by
      cases hhr : hexRender v with
      | nil => exact absurd hhr (hexRender_ne_nil v)
      | cons a b => exact ⟨a, b, rfl⟩
    have hmap : (v :: t).map hexRender = hexRender v :: t.map hexRender := List.map_cons _ _ _
    obtain ⟨r, hcr⟩ := intercalate_head (t.map hexRender) hg
    rw [hmap]
    have hne : (List.intercalate [':'] (hexRender v :: t.map hexRender)).isEmpty = false := by
      rw [hcr]
      rfl
    rw [hne]
    simp only [Bool.not_false, if_true]
    have := splitOn_intercalate_hexRender (v :: t) (by simp)
    rw [hmap] at this
    exact this

theorem expandChecked_compressed {hx : List ℤ} (h8 : hx.length = 8) {s l : ℕ}
    (hl2 : 2 ≤ l) (hsl : s + l ≤ 8) (hwin : (hx.drop s).take l = List.replicate l 0) :
    ipv6.expandChecked
      (List.intercalate [':'] ((hx.take s).map hexRender)
        ++ ':' :: ':' :: List.intercalate [':'] ((hx.drop (s + l)).map hexRender))
      = some (List.intercalate [':'] (hx.map hexRender))
    ∧ countDC
      (List.intercalate [':'] ((hx.take s).map hexRender)
        ++ ':' :: ':' :: List.intercalate [':'] ((hx.drop (s + l)).map hexRender)) = 1 := by
  have hsplit : jsSplitDC
      (List.intercalate [':'] ((hx.take s).map hexRender)
        ++ ':' :: ':' :: List.intercalate [':'] ((hx.drop (s + l)).map hexRender))
      = [List.intercalate [':'] ((hx.take s).map hexRender),
         List.intercalate [':'] ((hx.drop (s + l)).map hexRender)] := by
    have h1 := jsSplitDC_append
      (List.intercalate [':'] ((hx.take s).map hexRender))
      (List.intercalate [':'] ((hx.drop (s + l)).map hexRender))
      (noDCP_intercalate_aux _ (hexRender_groups_props _))
    rw [jsSplitDC_of_noDCP _ (noDCP_intercalate (hexRender_groups_props _))] at h1
    exact h1
  have hcnt : countDC
      (List.intercalate [':'] ((hx.take s).map hexRender)
        ++ ':' :: ':' :: List.intercalate [':'] ((hx.drop (s + l)).map hexRender)) = 1 := by
    have := jsSplitDC_length
      (List.intercalate [':'] ((hx.take s).map hexRender)
        ++ ':' :: ':' :: List.intercalate [':'] ((hx.drop (s + l)).map hexRender))
    rw [hsplit] at this
    rw [List.length_cons, List.length_cons, List.length_nil] at this
    omega
  have hdecomp : hx.take s ++ List.replicate l (0 : ℤ) ++ hx.drop (s + l) = hx := by
    rw [← hwin, List.append_assoc]
    have hdd : (hx.drop s).drop l = hx.drop (s + l) := List.drop_drop l s hx
    rw [← hdd, List.take_append_drop, List.take_append_drop]
  have hgroups : (hx.take s).map hexRender ++ List.replicate l ['0']
      ++ (hx.drop (s + l)).map hexRender = hx.map hexRender := by
    have hrep : List.replicate l ['0'] = (List.replicate l (0 : ℤ)).map hexRender := by
      rw [List.map_replicate, hexRender_zero]
    rw [hrep, ← List.map_append, ← List.map_append, hdecomp]
  have hlen1 : ((hx.take s).map hexRender).length = s := by
    simp [List.length_take, h8]
    omega
  have hlen2 : ((hx.drop (s + l)).map hexRender).length = 8 - (s + l) := by
    simp [List.length_drop, h8]
  refine ⟨?_, hcnt⟩
  simp only [ipv6.expandChecked]
  rw [hsplit]
  simp only [List.getD_cons_zero, List.getD_cons_succ]
  rw [leftParts_eq (hx.take s), leftParts_eq (hx.drop (s + l))]
  rw [hlen1, hlen2]
  have hmiss : ((8 : ℤ) - (s : ℤ) - ((8 - (s + l) : ℕ) : ℤ)) = (l : ℤ) := by
    push_cast
    omega
  rw [hmiss]
  rw [if_neg (by omega)]
  rw [Int.toNat_natCast]
  rw [hgroups]

end CidrBlock

namespace CidrBlock

theorem full_render_facts {hx : List ℤ} (h8 : hx.length = 8)
    (hb : ∀ h ∈ hx, 0 ≤ h ∧ h ≤ 65535) :
    (List.intercalate [':'] (hx.map hexRender)).splitOn ':' = hx.map hexRender
    ∧ ((hx.map hexRender).length = 8)
    ∧ ((hx.map hexRender).all ipv6.hextetCheck = true)
    ∧ ((hx.map hexRender).map (fun g => jsNumToInt (jsParseInt16 g)) = hx) := by
  have hxne : hx ≠ [] := by
    intro h
    rw [h] at h8
    simp at h8
  exact ⟨splitOn_intercalate_hexRender hx hxne, by simp [h8],
    all_hextetCheck_hexRender hb, map_parse_hexRender hb⟩

theorem rendered_uncompressed_ok {hx : List ℤ} (h8 : hx.length = 8)
    (hb : ∀ h ∈ hx, 0 ≤ h ∧ h ≤ 65535) :
    ipv6.isValidAddress (.str (List.intercalate [':'] (hx.map hexRender))) = true
    ∧ ipv6.parseHextets (.str (List.intercalate [':'] (hx.map hexRender))) = .ok hx := by
  obtain ⟨hsplit, hlen, hall, hparse⟩ := full_render_facts h8 hb
  have hmapped : ipv4MappedMatch (List.intercalate [':'] (hx.map hexRender)) = none :=
    ipv4MappedMatch_none_of_no_dot (no_dot_intercalate_hexRender hx)
  have hjs : jsSplitDC (List.intercalate [':'] (hx.map hexRender))
      = [List.intercalate [':'] (hx.map hexRender)] :=
    jsSplitDC_of_noDCP _ (noDCP_intercalate (hexRender_groups_props hx))
  have hcount : countDC (List.intercalate [':'] (hx.map hexRender)) = 0 := by
    have := jsSplitDC_length (List.intercalate [':'] (hx.map hexRender))
    rw [hjs, List.length_cons, List.length_nil] at this
    omega
  have hhas : hasDC (List.intercalate [':'] (hx.map hexRender)) = false :=
    (hasDC_false_iff_countDC _).mpr hcount
  have hval : ipv6.isValidAddress (.str (List.intercalate [':'] (hx.map hexRender))) = true := by
    simp only [ipv6.isValidAddress, hmapped]
    rw [if_neg (by omega)]
    simp only [hhas, Bool.false_eq_true, if_false, hsplit]
    simp [hlen, hall]
  refine ⟨hval, ?_⟩
  unfold ipv6.parseHextets
  rw [hval]
  rw [if_neg (by simp)]
  simp only [hmapped, hhas, Bool.false_eq_true, if_false, hsplit]
  rw [hparse]

theorem rendered_compressed_ok {hx : List ℤ} (h8 : hx.length = 8)
    (hb : ∀ h ∈ hx, 0 ≤ h ∧ h ≤ 65535) {s l : ℕ}
    (hl2 : 2 ≤ l) (hsl : s + l ≤ 8) (hwin : (hx.drop s).take l = List.replicate l 0) :
    ipv6.isValidAddress (.str (List.intercalate [':'] ((hx.take s).map hexRender)
      ++ ':' :: ':' :: List.intercalate [':'] ((hx.drop (s + l)).map hexRender))) = true
    ∧ ipv6.parseHextets (.str (List.intercalate [':'] ((hx.take s).map hexRender)
      ++ ':' :: ':' :: List.intercalate [':'] ((hx.drop (s + l)).map hexRender))) = .ok hx := by
  obtain ⟨hsplit, hlen, hall, hparse⟩ := full_render_facts h8 hb
  obtain ⟨hexp, hcnt⟩ := expandChecked_compressed h8 hl2 hsl hwin
  have hmapped : ipv4MappedMatch (List.intercalate [':'] ((hx.take s).map hexRender)
      ++ ':' :: ':' :: List.intercalate [':'] ((hx.drop (s + l)).map hexRender)) = none := by
    refine ipv4MappedMatch_none_of_no_dot ?_
    intro hd
    rcases List.mem_append.mp hd with hd1 | hd2
    · exact no_dot_intercalate_hexRender _ hd1
    · rcases List.mem_cons.mp hd2 with he | hd3
      · exact absurd he (by decide)
      rcases List.mem_cons.mp hd3 with he | hd4
      · exact absurd he (by decide)
      · exact no_dot_intercalate_hexRender _ hd4
  have hhas : hasDC (List.intercalate [':'] ((hx.take s).map hexRender)
      ++ ':' :: ':' :: List.intercalate [':'] ((hx.drop (s + l)).map hexRender)) = true := by
    cases hh : hasDC (List.intercalate [':'] ((hx.take s).map hexRender)
        ++ ':' :: ':' :: List.intercalate [':'] ((hx.drop (s + l)).map hexRender))
    · have := (hasDC_false_iff_countDC _).mp hh
      omega
    · rfl
  have hval : ipv6.isValidAddress (.str (List.intercalate [':'] ((hx.take s).map hexRender)
      ++ ':' :: ':' :: List.intercalate [':'] ((hx.drop (s + l)).map hexRender))) = true := by
    simp only [ipv6.isValidAddress, hmapped]
    rw [if_neg (by omega)]
    simp only [hhas, if_true, hexp, hsplit]
    simp [hlen, hall]
  refine ⟨hval, ?_⟩
  unfold ipv6.parseHextets
  rw [hval]
  rw [if_neg (by simp)]
  simp only [hmapped, hhas, if_true, expandChecked_eq hexp, hsplit]
  rw [hparse]

end CidrBlock

namespace CidrBlock

theorem ipv6_str_roundtrip {hx : List ℤ} (h8 : hx.length = 8)
    (hb : ∀ h ∈ hx, 0 ≤ h ∧ h ≤ 65535) :
    mkIpv6Address (.str (Ipv6Address.toStr ⟨hx⟩)) = .ok ⟨hx⟩ := by
  have ht : Ipv6Address.toStr ⟨hx⟩ = specCompress hx :=
    toStr_eq_specCompress (show (Ipv6Address.mk hx).hextets.length = 8 from h8)
  rw [ht]
  unfold specCompress
  cases hbest : bestZeroRun (hx.map fun h => decide (h = 0)) with
  | none =>
    obtain ⟨hval, hparse⟩ := rendered_uncompressed_ok h8 hb
    unfold mkIpv6Address
    rw [hval, if_neg (by simp), hparse]
    simp [Except.map]
  | some p =>
    obtain ⟨s, l⟩ := p
    obtain ⟨hl2, hsl, hwin⟩ := best8_facts h8 hbest
    obtain ⟨hval, hparse⟩ := rendered_compressed_ok h8 hb hl2 hsl hwin
    unfold mkIpv6Address
    rw [hval, if_neg (by simp), hparse]
    simp [Except.map]

theorem ipv6_roundtrip {l : Ipv6AddrLit} {a : Ipv6Address}
    (h : mkIpv6Address l = .ok a) : mkIpv6Address (.str a.toStr) = .ok a := by
  have hinv := mkIpv6Address_inv h
  obtain ⟨hx⟩ := a
  exact ipv6_str_roundtrip hinv.1 hinv.2

end CidrBlock

namespace CidrBlock

theorem jsAnd255_bound (x : ℤ) : 0 ≤ jsAnd x 255 ∧ jsAnd x 255 ≤ 255 := by
  unfold jsAnd
  have h255 : toUint32 255 = 255 := toUint32_of_small (by norm_num) (by norm_num)
  rw [h255]
  have hand : ((toUint32 x).toNat &&& (255 : ℤ).toNat) ≤ 255 := by
    calc ((toUint32 x).toNat &&& (255 : ℤ).toNat) ≤ (255 : ℤ).toNat := Nat.and_le_right
      _ = 255 := rfl
  have hcast : (((toUint32 x).toNat &&& (255 : ℤ).toNat : ℕ) : ℤ) ≤ 255 := by
    exact_mod_cast hand
  have h0 : (0 : ℤ) ≤ (((toUint32 x).toNat &&& (255 : ℤ).toNat : ℕ) : ℤ) :=
    Int.natCast_nonneg _
  rw [toInt32_of_small h0 (lt_of_le_of_lt hcast (by norm_num))]
  exact ⟨h0, hcast⟩

theorem parseOctets_bounds {l : Ipv4AddrLit} {os : List ℤ}
    (hv : ipv4.isValidAddress l = true) (hp : ipv4.parseOctets l = .ok os) :
    os.length = 4 ∧ ∀ o ∈ os, 0 ≤ o ∧ o ≤ 255 := by
  unfold ipv4.parseOctets at hp
  rw [hv] at hp
  rw [if_neg (by simp)] at hp
  have hcast : ((255 : ℤ) : ℚ) = (255 : ℚ) := by norm_num
  cases l with
  | nullish => exact absurd hp (by simp)
  | str s =>
    obtain rfl := Except.ok.inj hp
    simp only [ipv4.isValidAddress, ipv4.octetsCheck, Bool.and_eq_true, List.all_eq_true,
      Bool.not_eq_true', decide_eq_true_eq, List.length_map] at hv
    obtain ⟨hlen, hall⟩ := hv
    refine ⟨by simp [hlen], ?_⟩
    intro o ho
    simp only [List.map_map, List.mem_map] at ho
    obtain ⟨g, hg, rfl⟩ := ho
    obtain ⟨⟨hint, hlo⟩, hhi⟩ := hall (jsToNumber g) (List.mem_map_of_mem _ hg)
    have hhi' : (jsToNumber g).gt (.fin ((255 : ℤ) : ℚ)) = false := by
      rw [hcast]; exact hhi
    exact jsNumToInt_bound_of_checks (by norm_num) hlo hhi'
  | num x =>
    obtain rfl := Except.ok.inj hp
    refine ⟨rfl, ?_⟩
    simp only [List.forall_mem_cons]
    exact ⟨jsAnd255_bound _, jsAnd255_bound _, jsAnd255_bound _, jsAnd255_bound _,
      fun o ho => absurd ho (List.not_mem_nil o)⟩
  | arr xs =>
    obtain rfl := Except.ok.inj hp
    simp only [ipv4.isValidAddress] at hv
    by_cases hany : (xs.any fun v => !v.isNumber) = true
    · rw [if_pos hany] at hv
      exact absurd hv (by simp)
    · rw [if_neg hany] at hv
      simp only [ipv4.octetsCheck, Bool.and_eq_true, List.all_eq_true,
        Bool.not_eq_true', decide_eq_true_eq, List.length_map] at hv
      obtain ⟨hlen, hall⟩ := hv
      refine ⟨by simp [hlen], ?_⟩
      intro o ho
      simp only [List.map_map, List.mem_map] at ho
      obtain ⟨v, hvm, rfl⟩ := ho
      obtain ⟨⟨hint, hlo⟩, hhi⟩ := hall (JsVal.toNum v) (List.mem_map_of_mem _ hvm)
      have hhi' : (JsVal.toNum v).gt (.fin ((255 : ℤ) : ℚ)) = false := by
        rw [hcast]; exact hhi
      exact jsNumToInt_bound_of_checks (by norm_num) hlo hhi'

end CidrBlock

namespace CidrBlock

theorem intToDecStr_nonneg {o : ℤ} (h0 : 0 ≤ o) : intToDecStr o = natToDecStr o.toNat := by
  unfold intToDecStr
  rw [if_neg (by omega)]

theorem jsToNumber_intToDecStr {o : ℤ} (h0 : 0 ≤ o) :
    jsToNumber (intToDecStr o) = .fin ((o : ℤ) : ℚ) := by
  rw [intToDecStr_nonneg h0]
  rw [jsToNumber_digits (natToDecStr_ne_nil _) (mem_natToDecStr_digit)]
  rw [decVal_natToDecStr, Int.toNat_of_nonneg h0]

theorem decGroups_props {os : List ℤ} (hb : ∀ o ∈ os, 0 ≤ o ∧ o ≤ 255) :
    ∀ g ∈ os.map intToDecStr, ¬('.' ∈ g) := by
  intro g hg hd
  obtain ⟨o, ho, rfl⟩ := List.mem_map.mp hg
  rw [intToDecStr_nonneg (hb o ho).1] at hd
  exact digit_ne_dot (mem_natToDecStr_digit '.' hd) rfl

theorem splitOn_intercalate_decStr {os : List ℤ} (hne : os ≠ [])
    (hb : ∀ o ∈ os, 0 ≤ o ∧ o ≤ 255) :
    (List.intercalate ['.'] (os.map intToDecStr)).splitOn '.' = os.map intToDecStr := by
  refine List.splitOn_intercalate (os.map intToDecStr) '.' (decGroups_props hb) ?_
  simp [hne]

theorem ipv4_str_roundtrip {os : List ℤ} (h4 : os.length = 4)
    (hb : ∀ o ∈ os, 0 ≤ o ∧ o ≤ 255) :
    mkIpv4Address (.str (Ipv4Address.toStr ⟨os⟩)) = .ok ⟨os⟩ := by
  have hosne : os ≠ [] := by
    intro h
    rw [h] at h4
    simp at h4
  have hsplit := splitOn_intercalate_decStr hosne hb
  have hmapnum : (os.map intToDecStr).map jsToNumber
      = os.map (fun o => JsNum.fin ((o : ℤ) : ℚ)) := by
    rw [List.map_map]
    refine List.map_congr_left ?_
    intro o ho
    simp only [Function.comp_apply]
    exact jsToNumber_intToDecStr (hb o ho).1
  have hval : ipv4.isValidAddress (.str (Ipv4Address.toStr ⟨os⟩)) = true := by
    show ipv4.isValidAddress (.str (List.intercalate ['.'] (os.map intToDecStr))) = true
    simp only [ipv4.isValidAddress, hsplit, hmapnum]
    simp only [ipv4.octetsCheck, Bool.and_eq_true, List.all_eq_true, List.length_map,
      decide_eq_true_eq]
    refine ⟨h4, ?_⟩
    intro x hxm
    obtain ⟨o, ho, rfl⟩ := List.mem_map.mp hxm
    obtain ⟨h0, h255⟩ := hb o ho
    refine ⟨⟨jsNum_isIntB_intCast o, ?_⟩, ?_⟩
    · simp only [jsNum_lt_fin, Bool.not_eq_true', decide_eq_false_iff_not, not_lt]
      exact_mod_cast h0
    · simp only [jsNum_gt_fin, Bool.not_eq_true', decide_eq_false_iff_not, not_lt]
      exact_mod_cast h255
  have hparse : ipv4.parseOctets (.str (Ipv4Address.toStr ⟨os⟩)) = .ok os := by
    unfold ipv4.parseOctets
    rw [hval, if_neg (by simp)]
    show Except.ok (((List.intercalate ['.'] (os.map intToDecStr)).splitOn '.').map
      jsToNumber |>.map jsNumToInt) = .ok os
    rw [hsplit, hmapnum, List.map_map]
    have : ∀ o ∈ os, (jsNumToInt ∘ fun o => JsNum.fin ((o : ℤ) : ℚ)) o = id o := by
      intro o ho
      simp only [Function.comp_apply, id_eq]
      exact jsNumToInt_intCast o
    rw [List.map_congr_left this, List.map_id]
  unfold mkIpv4Address
  rw [hval, if_neg (by simp), hparse]
  simp [Except.map]

theorem ipv4_roundtrip {l : Ipv4AddrLit} {a : Ipv4Address}
    (h : mkIpv4Address l = .ok a) : mkIpv4Address (.str a.toStr) = .ok a := by
  obtain ⟨os⟩ := a
  unfold mkIpv4Address at h
  cases hv : ipv4.isValidAddress l with
  | false => rw [hv] at h; simp at h
  | true =>
    rw [hv] at h
    rw [if_neg (by simp)] at h
    obtain ⟨os', hp, hmk⟩ := except_map_eq_ok h
    have hos : os' = os := by
      have := congrArg Ipv4Address.octets hmk
      simpa using this
    subst hos
    obtain ⟨h4, hb⟩ := parseOctets_bounds hv hp
    exact ipv4_str_roundtrip h4 hb

end CidrBlock

namespace CidrBlock

/-- C6: parse-render-parse is the identity on parsed values: for every
literal accepted by a constructor of either family, rendering the parsed
address with `toString` and parsing that string again reconstructs exactly
the same stored address (the same octet/hextet array, hence the same
canonical value). -/
theorem C6_parse_render_roundtrip :
    (∀ (l : Ipv4AddrLit) (a : Ipv4Address), mkIpv4Address l = .ok a →
        mkIpv4Address (.str a.toStr) = .ok a)
    ∧ (∀ (l : Ipv6AddrLit) (a : Ipv6Address), mkIpv6Address l = .ok a →
        mkIpv6Address (.str a.toStr) = .ok a) :=
  ⟨fun l a h => ipv4_roundtrip h, fun l a h => ipv6_roundtrip h⟩

/-- C6 witness: the roundtrip applied to 192.168.1.1 and to 2001:db8::1
(the latter rendered in compressed form). -/
theorem C6_witness :
    mkIpv4Address (.str (Ipv4Address.toStr ⟨[192, 168, 1, 1]⟩)) = .ok ⟨[192, 168, 1, 1]⟩
    ∧ mkIpv6Address (.str (Ipv6Address.toStr ⟨[0x2001, 0xdb8, 0, 0, 0, 0, 0, 1]⟩))
        = .ok ⟨[0x2001, 0xdb8, 0, 0, 0, 0, 0, 1]⟩ :=
  ⟨C6_parse_render_roundtrip.1 (.str ("192.168.1.1".toList)) ⟨[192, 168, 1, 1]⟩ (by decide),
   C6_parse_render_roundtrip.2 (.str ("2001:db8::1".toList))
     ⟨[0x2001, 0xdb8, 0, 0, 0, 0, 0, 1]⟩ (by decide)⟩

end CidrBlock
